import Mathlib

/-!
Verification of the Zettelkasten identifier core of the `ob-zk` Obsidian
plugin: identifier parsing (`parseZettelId`, in both its revisions),
serialization (`joinParts`), the identifier comparator (`compareZettelIds`),
letter-sequence increment (`getNextLetterSequence`), child-id generation
(`generateChildId` with `getMaxChild`), the link-graph tree builder
(`buildTree`), the collapse-visibility check of `renderZettelList`, and the
refresh-debounce logic.  Strings are modelled as `List Char`; JavaScript
numbers are modelled as exact integers (float rounding of very large digit
runs is out of scope).
-/

/-- A single identifier token (`parts` element): a run of characters. -/
abbrev ZPart := List Char

/-- `'a' ≤ c ≤ 'z'`, the character class `[a-z]` of the source regexes. -/
def isLowerAZ (c : Char) : Bool := 'a' ≤ c && c ≤ 'z'

/-- `'0' ≤ c ≤ '9'`, the character class `\d` of the source regexes. -/
def isDigit09 (c : Char) : Bool := '0' ≤ c && c ≤ '9'

/-- `utils.isDigitPart`: a part counts as numeric iff its FIRST character is a
digit (`charCodeAt(0)` between 48 and 57; `NaN` on the empty string, which
compares false). -/
def isDigitPart (p : ZPart) : Bool :=
  match p with
  | [] => false
  | c :: _ => isDigit09 c

/-- JS `parseInt` on a string whose first character is a digit: the value of
the longest leading digit run (exact; JS float rounding out of scope). -/
def parseIntNat (p : ZPart) : Nat :=
  (p.takeWhile isDigit09).foldl (fun a c => a * 10 + (c.toNat - 48)) 0

/-- The digit characters, for JS `Number.prototype.toString` (base 10). -/
def digitCh : Nat → Char
  | 0 => '0' | 1 => '1' | 2 => '2' | 3 => '3' | 4 => '4'
  | 5 => '5' | 6 => '6' | 7 => '7' | 8 => '8' | _ => '9'

/-- Decimal printing, little fuel-driven long division (fuel `n+1` always
suffices since `n/10 < n`); mirrors `(num).toString()` on a natural. -/
def natToDecAux : Nat → Nat → List Char → List Char
  | 0, _, acc => acc
  | fuel + 1, n, acc =>
    if n = 0 then acc
    else natToDecAux fuel (n / 10) (digitCh (n % 10) :: acc)

/-- JS `(n).toString()` for a natural number `n`. -/
def natToDec (n : Nat) : List Char :=
  if n = 0 then ['0'] else natToDecAux (n + 1) n []

/-- `utils.getNextLetterSequence`, inner loop viewed from the right end of the
string: increment the rightmost character that is `< 'z'`, turning every `'z'`
to its right into `'a'`; `none` means the loop ran off the left end. -/
def incRevLetters : List Char → Option (List Char)
  | [] => none
  | c :: rest =>
    if c < 'z' then some (Char.ofNat (c.toNat + 1) :: rest)
    else (incRevLetters rest).map (fun r => 'a' :: r)

/-- `utils.getNextLetterSequence`: `a → b`, `z → aa`, `az → ba`, `zz → aaa`.
When every character carries, the result is `'a'.repeat(length + 1)`.
(The TS signature admits `null` but no branch returns it.) -/
def getNextLetterSequence (letters : List Char) : List Char :=
  match incRevLetters letters.reverse with
  | some r => r.reverse
  | none => List.replicate (letters.length + 1) 'a'

/-- `utils.getLetterSequenceFromIndex` inner do-while loop (fuel-driven; the
JS loop continues while `floor(remaining/26) - 1 ≥ 0`). -/
def letterCh : Nat → Char
  | 0 => 'a' | 1 => 'b' | 2 => 'c' | 3 => 'd' | 4 => 'e' | 5 => 'f'
  | 6 => 'g' | 7 => 'h' | 8 => 'i' | 9 => 'j' | 10 => 'k' | 11 => 'l'
  | 12 => 'm' | 13 => 'n' | 14 => 'o' | 15 => 'p' | 16 => 'q' | 17 => 'r'
  | 18 => 's' | 19 => 't' | 20 => 'u' | 21 => 'v' | 22 => 'w' | 23 => 'x'
  | 24 => 'y' | _ => 'z'

/-- Loop body of `getLetterSequenceFromIndex`. -/
def letterSeqAux : Nat → Nat → List Char → List Char
  | 0, _, acc => acc
  | fuel + 1, n, acc =>
    let acc2 := letterCh (n % 26) :: acc
    if n / 26 = 0 then acc2 else letterSeqAux fuel (n / 26 - 1) acc2

/-- `utils.getLetterSequenceFromIndex`: `0 → a, 1 → b, …, 25 → z, 26 → aa, …`
(the `index < 0` branch returning `"a"` is dropped: call sites pass array
indices, which are non-negative). -/
def getLetterSequenceFromIndex (index : Nat) : List Char :=
  letterSeqAux (index + 1) index []

/-! ## The identifier grammar

Both revisions of `parseZettelId` match the candidate name (after stripping a
trailing `.md`) against

  `^([a-z](?:\d+(?:\.\d+)?[a-z]*)*(?:\.\d+)?)(?:-.*)?$`

Since `-` cannot occur inside the captured group, the capture is exactly the
maximal `-`-free prefix of the name, and that prefix must match
`[a-z](?:\d+(?:\.\d+)?[a-z]*)*(?:\.\d+)?` in full.  For this regex, greedy
matching without backtracking recognises the same language: after a digit run,
a following `". digits"` is attached to the current group whenever it is
present (if it is not attached, the group ends at a `.`, no further group can
start, so the only continuation is the trailing `". digits"` followed by the
end — which the greedy parse accepts as well). -/

/-- `(l.dropWhile p).length ≤ l.length`. -/
theorem dropWhile_length_le (p : Char → Bool) (l : List Char) :
    (l.dropWhile p).length ≤ l.length := by
  induction l with
  | nil => simp
  | cons c cs ih =>
    by_cases h : p c
    · rw [List.dropWhile_cons_of_pos h]; simp only [List.length_cons]; omega
    · rw [List.dropWhile_cons_of_neg h]

/-- `dropWhile` strictly shortens a list whose head satisfies the predicate. -/
theorem dropWhile_length_lt (p : Char → Bool) (c : Char) (cs : List Char) (h : p c) :
    ((c :: cs).dropWhile p).length < (c :: cs).length := by
  rw [List.dropWhile_cons_of_pos h]
  have := dropWhile_length_le p cs
  simp only [List.length_cons]; omega

/-- The optional `(?:\.\d+)?` step: when the remainder starts with a point
followed by a digit, consume the point and the maximal digit run. -/
def attachDotDigits (r1 : List Char) : List Char :=
  match r1 with
  | '.' :: c2 :: rest2 =>
    if isDigit09 c2 then (c2 :: rest2).dropWhile isDigit09 else r1
  | _ => r1

/-- `attachDotDigits` never lengthens its input. -/
theorem attachDotDigits_length_le (r1 : List Char) :
    (attachDotDigits r1).length ≤ r1.length := by
  unfold attachDotDigits
  split
  · rename_i c2 rest2
    split
    · have := dropWhile_length_le isDigit09 (c2 :: rest2)
      simp only [List.length_cons] at *
      omega
    · exact le_rfl
  · exact le_rfl

/-- Recogniser for `(?:\d+(?:\.\d+)?[a-z]*)*(?:\.\d+)?` (anchored at both
ends), i.e. the identifier grammar after its leading letter; structurally
recursive on a fuel argument so that it computes in the kernel (any fuel
beyond the input length is enough, see `matchGroupsF_irrel`). -/
def matchGroupsF : Nat → List Char → Bool
  | 0, _ => false
  | _ + 1, [] => true
  | fuel + 1, c :: cs =>
    if c = '.' then
      -- only the trailing `\.\d+` can start with a point; it must end the id
      decide (cs.takeWhile isDigit09 ≠ []) && decide (cs.dropWhile isDigit09 = [])
    else if isDigit09 c then
      -- `\d+`, then `(?:\.\d+)?`, then `[a-z]*`, then repeat
      matchGroupsF fuel ((attachDotDigits ((c :: cs).dropWhile isDigit09)).dropWhile isLowerAZ)
    else false

/-- The remainder the recogniser continues with after consuming one group. -/
def groupStep (c : Char) (cs : List Char) : List Char :=
  (attachDotDigits ((c :: cs).dropWhile isDigit09)).dropWhile isLowerAZ

/-- One group consumes at least the head character. -/
theorem groupStep_length_lt (c : Char) (cs : List Char) (h : isDigit09 c) :
    (groupStep c cs).length < (c :: cs).length := by
  unfold groupStep
  have h1 := dropWhile_length_le isLowerAZ (attachDotDigits ((c :: cs).dropWhile isDigit09))
  have h2 := attachDotDigits_length_le ((c :: cs).dropWhile isDigit09)
  have h3 := dropWhile_length_lt isDigit09 c cs h
  omega

/-- Any fuel beyond the input length evaluates `matchGroupsF` identically. -/
theorem matchGroupsF_irrel (fuel1 : Nat) :
    ∀ fuel2 l, l.length < fuel1 → l.length < fuel2 →
      matchGroupsF fuel1 l = matchGroupsF fuel2 l := by
  induction fuel1 with
  | zero => intro fuel2 l h1 _; omega
  | succ f ih =>
    intro fuel2 l h1 h2
    match fuel2, h2 with
    | g + 1, h2 =>
      match l with
      | [] => rfl
      | c :: cs =>
        simp only [matchGroupsF]
        by_cases hdot : c = '.'
        · rw [if_pos hdot, if_pos hdot]
        · rw [if_neg hdot, if_neg hdot]
          by_cases hc : isDigit09 c
          · rw [if_pos hc, if_pos hc]
            have hlt := groupStep_length_lt c cs hc
            unfold groupStep at hlt
            simp only [List.length_cons] at h1 h2 hlt
            have e1 := ih (g : Nat)
              ((attachDotDigits ((c :: cs).dropWhile isDigit09)).dropWhile isLowerAZ)
              (by omega) (by omega)
            exact e1
          · rw [if_neg hc, if_neg hc]

/-- Recogniser for the grammar after the leading letter. -/
def matchGroups (l : List Char) : Bool := matchGroupsF (l.length + 1) l

/-- Unfolding `matchGroups` one group at a time. -/
theorem matchGroups_cons (c : Char) (cs : List Char) :
    matchGroups (c :: cs) =
      if c = '.' then
        decide (cs.takeWhile isDigit09 ≠ []) && decide (cs.dropWhile isDigit09 = [])
      else if isDigit09 c then matchGroups (groupStep c cs)
      else false := by
  show matchGroupsF ((c :: cs).length + 1) (c :: cs) = _
  simp only [List.length_cons, matchGroupsF]
  by_cases hdot : c = '.'
  · rw [if_pos hdot, if_pos hdot]
  · rw [if_neg hdot, if_neg hdot]
    by_cases hc : isDigit09 c
    · rw [if_pos hc, if_pos hc]
      have hlt := groupStep_length_lt c cs hc
      simp only [List.length_cons] at hlt
      exact matchGroupsF_irrel (cs.length + 1) ((groupStep c cs).length + 1) (groupStep c cs)
        (by unfold groupStep at hlt ⊢; omega) (by omega)
    · rw [if_neg hc, if_neg hc]

/-- JS `"…".replace(/\.md$/, '')`: strip one trailing `".md"`. -/
def stripMd (name : List Char) : List Char :=
  match name.reverse with
  | 'd' :: 'm' :: '.' :: r => r.reverse
  | _ => name

/-- JS `.` (in `(?:-.*)?`) matches anything except line terminators. -/
def notLineTerm (c : Char) : Bool :=
  c ≠ '\n' && c ≠ '\r' && c ≠ Char.ofNat 0x2028 && c ≠ Char.ofNat 0x2029

/-- The captured group `[a-z](?:\d+(?:\.\d+)?[a-z]*)*(?:\.\d+)?`, in full. -/
def idGrammar (front : List Char) : Bool :=
  match front with
  | c :: cs => isLowerAZ c && matchGroups cs
  | [] => false

/-- Apply the anchored regex to a (already `.md`-stripped) name and return the
captured identifier (`match[1]`), if the name matches: the capture is the
maximal `-`-free prefix, which must satisfy the identifier grammar; any title
suffix after the first `-` is matched by `.*` (no line terminators). -/
def matchIdName (name : List Char) : Option (List Char) :=
  let front := name.takeWhile (fun c => c ≠ '-')
  if idGrammar front then
    match name.dropWhile (fun c => c ≠ '-') with
    | [] => some front
    | _ :: rest => if rest.all notLineTerm then some front else none
  else none

/-- The tokenizer of the point-dropping revision: the global regex
`([a-z]+|\d+)` collects maximal letter and digit runs, skipping everything
else (in particular the decimal points).  Structurally recursive on fuel
(any fuel beyond the input length suffices, see `tokenizePartsF_irrel`). -/
def tokenizePartsF : Nat → List Char → List ZPart
  | 0, _ => []
  | _ + 1, [] => []
  | fuel + 1, c :: cs =>
    if isLowerAZ c then
      ((c :: cs).takeWhile isLowerAZ) :: tokenizePartsF fuel ((c :: cs).dropWhile isLowerAZ)
    else if isDigit09 c then
      ((c :: cs).takeWhile isDigit09) :: tokenizePartsF fuel ((c :: cs).dropWhile isDigit09)
    else tokenizePartsF fuel cs

/-- Any fuel beyond the input length evaluates `tokenizePartsF` identically. -/
theorem tokenizePartsF_irrel (fuel1 : Nat) :
    ∀ fuel2 l, l.length < fuel1 → l.length < fuel2 →
      tokenizePartsF fuel1 l = tokenizePartsF fuel2 l := by
  induction fuel1 with
  | zero => intro fuel2 l h1 _; omega
  | succ f ih =>
    intro fuel2 l h1 h2
    match fuel2, h2 with
    | g + 1, h2 =>
      match l with
      | [] => rfl
      | c :: cs =>
        simp only [tokenizePartsF]
        simp only [List.length_cons] at h1 h2
        by_cases hl : isLowerAZ c
        · rw [if_pos hl, if_pos hl]
          have hlt := dropWhile_length_lt isLowerAZ c cs hl
          simp only [List.length_cons] at hlt
          rw [ih g ((c :: cs).dropWhile isLowerAZ) (by omega) (by omega)]
        · rw [if_neg hl, if_neg hl]
          by_cases hd : isDigit09 c
          · rw [if_pos hd, if_pos hd]
            have hlt := dropWhile_length_lt isDigit09 c cs hd
            simp only [List.length_cons] at hlt
            rw [ih g ((c :: cs).dropWhile isDigit09) (by omega) (by omega)]
          · rw [if_neg hd, if_neg hd]
            exact ih g cs (by omega) (by omega)

/-- The tokenizer at its canonical fuel. -/
def tokenizeParts (l : List Char) : List ZPart := tokenizePartsF (l.length + 1) l

/-- Unfolding `tokenizeParts` one token at a time. -/
theorem tokenizeParts_cons (c : Char) (cs : List Char) :
    tokenizeParts (c :: cs) =
      if isLowerAZ c then
        ((c :: cs).takeWhile isLowerAZ) :: tokenizeParts ((c :: cs).dropWhile isLowerAZ)
      else if isDigit09 c then
        ((c :: cs).takeWhile isDigit09) :: tokenizeParts ((c :: cs).dropWhile isDigit09)
      else tokenizeParts cs := by
  show tokenizePartsF ((c :: cs).length + 1) (c :: cs) = _
  simp only [List.length_cons, tokenizePartsF]
  by_cases hl : isLowerAZ c
  · rw [if_pos hl, if_pos hl]
    have hlt := dropWhile_length_lt isLowerAZ c cs hl
    simp only [List.length_cons] at hlt
    rw [tokenizePartsF_irrel (cs.length + 1) (((c :: cs).dropWhile isLowerAZ).length + 1)
      ((c :: cs).dropWhile isLowerAZ) (by omega) (by omega)]
    rfl
  · rw [if_neg hl, if_neg hl]
    by_cases hd : isDigit09 c
    · rw [if_pos hd, if_pos hd]
      have hlt := dropWhile_length_lt isDigit09 c cs hd
      simp only [List.length_cons] at hlt
      rw [tokenizePartsF_irrel (cs.length + 1) (((c :: cs).dropWhile isDigit09).length + 1)
        ((c :: cs).dropWhile isDigit09) (by omega) (by omega)]
      rfl
    · rw [if_neg hd, if_neg hd]
      rfl

/-- `ZettelId` of the current (point-dropping) revision of `utils.ts`. -/
structure ZettelId where
  id : List Char
  parts : List ZPart
  level : Nat
deriving Repr, DecidableEq

/-- `utils.parseZettelId`, current revision: strip `.md`, match the grammar,
tokenize into maximal letter/digit runs (points are dropped), and set
`level = max 0 (parts.length - 1)`. -/
def parseZettelId (filename : List Char) : Option ZettelId :=
  match matchIdName (stripMd filename) with
  | none => none
  | some id => some ⟨id, tokenizeParts id, (tokenizeParts id).length - 1⟩

/-- `utils.joinParts` tail: emit every further part, preceded by a `'.'`
whenever it has the same kind (`isDigitPart`) as its predecessor. -/
def joinRest (prevDigit : Bool) : List ZPart → List Char
  | [] => []
  | p :: rest =>
    (if prevDigit = isDigitPart p then ['.'] else []) ++ p ++ joinRest (isDigitPart p) rest

/-- `utils.joinParts`: rebuild the textual id from `parts`, inserting a
decimal point between adjacent parts of equal kind. -/
def joinParts (parts : List ZPart) : List Char :=
  match parts with
  | [] => []
  | p :: rest => p ++ joinRest (isDigitPart p) rest

/-- Lexicographic character-list comparison; models `localeCompare` on the
lowercase-ASCII strings the grammar produces (result sign only; V8 returns
-1/0/1 there). -/
def lexCmp : List Char → List Char → Ordering
  | [], [] => .eq
  | [], _ :: _ => .lt
  | _ :: _, [] => .gt
  | a :: as, b :: bs =>
    if a < b then .lt else if b < a then .gt else lexCmp as bs

/-- `Ordering` as the JS number sign `-1/0/1`. -/
def Ordering.toInt : Ordering → Int
  | .lt => -1
  | .eq => 0
  | .gt => 1

/-- `utils.compareZettelIds`, current revision (on the `parts` arrays): walk
the shared prefix; digit parts compare by `parseInt` value (returning the JS
difference `numA - numB` when they differ), letter parts by `localeCompare`,
a digit part sorts before a letter part; ties are broken by
`a.length - b.length`. -/
def compareZettelIds : List ZPart → List ZPart → Int
  | pa :: as, pb :: bs =>
    if isDigitPart pa then
      if isDigitPart pb then
        if parseIntNat pa ≠ parseIntNat pb
        then (parseIntNat pa : Int) - (parseIntNat pb : Int)
        else compareZettelIds as bs
      else -1
    else
      if isDigitPart pb then 1
      else
        if pa ≠ pb then (lexCmp pa pb).toInt
        else compareZettelIds as bs
  | a, b => (a.length : Int) - (b.length : Int)

/-! ## The earlier revision of `parseZettelId` (explicit point tokens) -/

/-- The per-segment tokenizer of the earlier revision: the global regex
`([a-z]|\d+)` collects SINGLE letters and maximal digit runs (fuel-driven;
fuel beyond the segment length is enough). -/
def tokenizeSegmentF : Nat → List Char → List ZPart
  | 0, _ => []
  | _ + 1, [] => []
  | fuel + 1, c :: cs =>
    if isLowerAZ c then [c] :: tokenizeSegmentF fuel cs
    else if isDigit09 c then
      ((c :: cs).takeWhile isDigit09) :: tokenizeSegmentF fuel ((c :: cs).dropWhile isDigit09)
    else tokenizeSegmentF fuel cs

/-- The earlier revision's segment tokenizer at its canonical fuel. -/
def tokenizeSegment (l : List Char) : List ZPart := tokenizeSegmentF (l.length + 1) l

/-- The earlier revision's `parts` construction: tokenize each `'.'`-separated
segment and append a point token after every segment whose FIRST occurrence is
not in last position (the source tests `segments.indexOf(segment) <
segments.length - 1`, which looks up the first occurrence of the segment's
VALUE — duplicated segment values therefore each get a point appended). -/
def oldBuildParts (segments : List (List Char)) : List ZPart :=
  (segments.map fun seg =>
    tokenizeSegment seg ++
      (if segments.indexOf seg < segments.length - 1 then [['.']] else [])).flatten

/-- The earlier revision's level walk: a point token adds one level, a
letter→digit transition adds one, a digit→letter transition adds one except at
index 0 (`lastType` starts as letter). -/
def oldLevelAux : List ZPart → Bool → Bool → Nat → Nat
  | [], _, _, acc => acc
  | p :: rest, lastDigit, first, acc =>
    if p = ['.'] then oldLevelAux rest lastDigit false (acc + 1)
    else if p.any isDigit09 then
      oldLevelAux rest true false (acc + (if lastDigit then 0 else 1))
    else
      oldLevelAux rest false false (acc + (if !first && lastDigit then 1 else 0))

/-- `ZettelId` of the earlier revision of `utils.ts` (point tokens kept,
`numeric`/`alpha` sort keys recorded). -/
structure ZettelIdOld where
  id : List Char
  parts : List ZPart
  level : Nat
  numeric : List Nat
  alpha : List ZPart
deriving Repr, DecidableEq

/-- `utils.parseZettelId`, earlier revision: same anchored regex, then the id
is split on `'.'`, each segment is tokenized by `([a-z]|\d+)`, point tokens
are appended per the `indexOf` test, and the level counts kind transitions
and point tokens. -/
def parseZettelIdOld (filename : List Char) : Option ZettelIdOld :=
  let name := stripMd filename
  match matchIdName name with
  | none => none
  | some id =>
    let segments := id.splitOn '.'
    let parts := oldBuildParts segments
    let tokens := (segments.map tokenizeSegment).flatten
    some ⟨id, parts, oldLevelAux parts false true 0,
      (tokens.filter (fun p => p.any isDigit09)).map parseIntNat,
      tokens.map (fun p => if p.any isDigit09 then [] else p)⟩

/-! ## Collapse visibility (`renderZettelList`) -/

/-- The hide test of `renderZettelList` (both revisions): a rendered node is
skipped iff its level is positive and some collapsed id is a strict textual
prefix of its id (`zettelId.startsWith(collapsedId) && zettelId !==
collapsedId`; the first revision adds the redundant
`zettelId.length > collapsedId.length`). -/
def shouldHide (level : Int) (collapsedIds : List (List Char)) (zettelId : List Char) : Bool :=
  if level > 0 then
    collapsedIds.any fun collapsedId =>
      collapsedId.isPrefixOf zettelId && collapsedId ≠ zettelId
  else false

/-! ## Refresh debouncing (`refresh` / `performRefresh`) -/

/-- The observable state of the refresh logic: whether a debounce timeout is
scheduled, whether `performRefresh` is in flight (`isRefreshing`), and how
many rebuilds have run. -/
structure RefreshState where
  pending : Bool
  refreshing : Bool
  runs : Nat
deriving Repr, DecidableEq

/-- `refresh()`: always `clearTimeout` the pending debounce timer; if
`isRefreshing`, return without scheduling; otherwise schedule a new timeout. -/
def notifyRefresh (s : RefreshState) : RefreshState :=
  if s.refreshing then { s with pending := false } else { s with pending := true }

/-- The debounce timer fires and calls `performRefresh`: the timer is
consumed; if a refresh is already in flight, `performRefresh` returns
immediately, otherwise one rebuild begins (counted here). -/
def fireTimer (s : RefreshState) : RefreshState :=
  if s.pending then
    if s.refreshing then { s with pending := false }
    else { pending := false, refreshing := true, runs := s.runs + 1 }
  else s

/-- The `finally` block of `performRefresh`: the in-flight rebuild completes
and `isRefreshing` is reset. -/
def completeRefresh (s : RefreshState) : RefreshState :=
  { s with refreshing := false }

/-- Timer/completion events only (no further change notification). -/
def runSilentEvents : List Bool → RefreshState → RefreshState
  | [], s => s
  | e :: es, s => runSilentEvents es (if e then fireTimer s else completeRefresh s)

/-! ## C9: letter-sequence increment -/

/-- The carry loop rewrites characters in place: the length is preserved. -/
theorem incRevLetters_length (l r : List Char) (h : incRevLetters l = some r) :
    r.length = l.length := by
  induction l generalizing r with
  | nil => simp [incRevLetters] at h
  | cons c rest ih =>
    by_cases hc : c < 'z'
    · simp only [incRevLetters, if_pos hc, Option.some.injEq] at h
      subst h; simp
    · simp only [incRevLetters, if_neg hc] at h
      cases hrec : incRevLetters rest with
      | none => rw [hrec] at h; simp at h
      | some r0 =>
        rw [hrec] at h
        simp only [Option.map, Option.some.injEq] at h
        subst h
        simp only [List.length_cons, ih r0 hrec]

/-- Claim C9: `getNextLetterSequence` is a base-26 increment over `[a-z]` with
rightmost-to-leftmost carry and a leading `'a'` prepended on full carry-out:
`a → b`, `z → aa`, `az → ba`, `zz → aaa`, and the result is never shorter
than the input. -/
theorem C9_letter_increment :
    getNextLetterSequence ['a'] = ['b'] ∧
    getNextLetterSequence ['z'] = ['a', 'a'] ∧
    getNextLetterSequence ['a', 'z'] = ['b', 'a'] ∧
    getNextLetterSequence ['z', 'z'] = ['a', 'a', 'a'] ∧
    ∀ s : List Char, s.length ≤ (getNextLetterSequence s).length := by
  refine ⟨by decide, by decide, by decide, by decide, fun s => ?_⟩
  unfold getNextLetterSequence
  cases h : incRevLetters s.reverse with
  | none => simp
  | some r =>
    have := incRevLetters_length s.reverse r h
    simp only [List.length_reverse] at *
    omega

/-! ## C6: collapse visibility -/

/-- Claim C6, counterexample: with `a1` collapsed, the node `a10` — a sibling
of `a1`, NOT one of its descendants (its `parts` do not extend `a1`'s
`parts`) — is nevertheless hidden, because the hide test is a plain textual
prefix test. -/
theorem C6_counterexample :
    shouldHide 1 [['a', '1']] ['a', '1', '0'] = true ∧
    ¬ (tokenizeParts ['a', '1'] <+: tokenizeParts ['a', '1', '0']) := by
  constructor
  · decide
  · decide

/-- Claim C6, amended: a rendered node is hidden iff its level is positive
and some member of the collapse set is a strict textual prefix of its id
(so `a10` IS hidden while `a1` is collapsed; the collapsed id itself is
never hidden, and neither is any node whose id does not textually extend a
collapsed id). -/
theorem C6_isHidden (level : Int) (collapsedIds : List (List Char)) (zettelId : List Char) :
    shouldHide level collapsedIds zettelId = true ↔
      0 < level ∧ ∃ c ∈ collapsedIds, c <+: zettelId ∧ c ≠ zettelId := by
  unfold shouldHide
  by_cases h : level > 0
  · rw [if_pos h]
    simp only [List.any_eq_true, Bool.and_eq_true, decide_eq_true_eq, h, true_and]
    constructor
    · rintro ⟨c, hc, hpre, hne⟩
      exact ⟨c, hc, List.isPrefixOf_iff_prefix.mp hpre, by simpa using hne⟩
    · rintro ⟨c, hc, hpre, hne⟩
      exact ⟨c, hc, List.isPrefixOf_iff_prefix.mpr hpre, by simpa using hne⟩
  · rw [if_neg h]
    simp only [Bool.false_eq_true, false_iff, not_and]
    intro h0
    omega

/-! ## C7: refresh coalescing -/

/-- Re-notifying with a timeout already pending just replaces the timeout. -/
theorem notify_iterate_pending (k : Nat) (r : Nat) :
    notifyRefresh^[k] ⟨true, false, r⟩ = ⟨true, false, r⟩ := by
  induction k with
  | zero => rfl
  | succ m ihm =>
    rw [Function.iterate_succ_apply]
    have step : notifyRefresh ⟨true, false, r⟩ = ⟨true, false, r⟩ := rfl
    rw [step, ihm]

/-- After at least one notification from the idle state, exactly one timeout
is pending and nothing has run yet. -/
theorem notify_iterate_idle (n : Nat) (r : Nat) (h : 1 ≤ n) :
    notifyRefresh^[n] ⟨false, false, r⟩ = ⟨true, false, r⟩ := by
  match n, h with
  | k + 1, _ =>
    rw [Function.iterate_succ_apply]
    have step : notifyRefresh ⟨false, false, r⟩ = ⟨true, false, r⟩ := rfl
    rw [step, notify_iterate_pending]

/-- Without any further change notification, the idle state never rebuilds:
timer fires and completions alone leave the run count unchanged. -/
theorem runSilentEvents_idle (evs : List Bool) (r : Nat) :
    runSilentEvents evs ⟨false, false, r⟩ = ⟨false, false, r⟩ := by
  induction evs with
  | nil => rfl
  | cons e es ih =>
    cases e
    · simpa [runSilentEvents, completeRefresh] using ih
    · simpa [runSilentEvents, fireTimer] using ih

/-- Claim C7, counterexample: a notification arriving while a rebuild is in
flight is dropped — `refresh()` clears the pending timer and returns early
when `isRefreshing` — so after the in-flight rebuild completes no timer is
pending and, however the timer/completion events continue, no additional
rebuild ever runs (the claim demanded exactly one additional rebuild). -/
theorem C7_counterexample :
    completeRefresh (notifyRefresh ⟨false, true, 0⟩) = ⟨false, false, 0⟩ ∧
    runSilentEvents [true, false, true, true] (completeRefresh (notifyRefresh ⟨false, true, 0⟩)) =
      ⟨false, false, 0⟩ := by
  constructor
  · decide
  · decide

/-- Claim C7, amended: N rapid change notifications within the debounce
window (no timer firing in between) still coalesce into exactly one rebuild;
but a notification arriving during an in-flight rebuild is LOST: it cancels
any pending timer, schedules nothing, and after the in-flight rebuild
completes no follow-up rebuild ever runs without a fresh notification. -/
theorem C7_refresh_coalescing :
    (∀ n r : Nat, 1 ≤ n →
      completeRefresh (fireTimer (notifyRefresh^[n] ⟨false, false, r⟩)) = ⟨false, false, r + 1⟩) ∧
    (∀ (p : Bool) (r : Nat), notifyRefresh ⟨p, true, r⟩ = ⟨false, true, r⟩) ∧
    (∀ (evs : List Bool) (r : Nat),
      runSilentEvents evs (completeRefresh ⟨false, true, r⟩) = ⟨false, false, r⟩) := by
  refine ⟨fun n r h => ?_, fun p r => ?_, fun evs r => ?_⟩
  · rw [notify_iterate_idle n r h]
    rfl
  · cases p <;> rfl
  · exact runSilentEvents_idle evs r

/-- Witness for C7: three notifications, then the timer fires and the rebuild
completes — exactly one run happened. -/
theorem C7_refresh_coalescing_witness :
    completeRefresh (fireTimer (notifyRefresh^[3] ⟨false, false, 0⟩)) = ⟨false, false, 1⟩ :=
  C7_refresh_coalescing.1 3 0 (by decide)

/-! ## C3: the comparator as an order -/

/-- Natural-number three-way comparison (sign of `numA - numB`). -/
def natCmp (a b : Nat) : Ordering :=
  if a < b then .lt else if b < a then .gt else .eq

/-- Per-part three-way comparison implementing the branch structure of
`compareZettelIds`: digit parts by numeric value, digits before letters,
letter parts lexicographically. -/
def partKeyCmp (p q : ZPart) : Ordering :=
  if isDigitPart p then
    if isDigitPart q then natCmp (parseIntNat p) (parseIntNat q) else .lt
  else if isDigitPart q then .gt
  else lexCmp p q

/-- Three-way comparison of part lists: first difference decides, a strict
prefix sorts first (this is `compareZettelIds` with its numeric result
collapsed to a sign). -/
def zettelCmp : List ZPart → List ZPart → Ordering
  | [], [] => .eq
  | [], _ :: _ => .lt
  | _ :: _, [] => .gt
  | p :: ps, q :: qs =>
    match partKeyCmp p q with
    | .eq => zettelCmp ps qs
    | o => o

/-- The sign of an integer, as an `Ordering`. -/
def intSign (i : Int) : Ordering :=
  if i < 0 then .lt else if i = 0 then .eq else .gt

theorem natCmp_swap (a b : Nat) : (natCmp a b).swap = natCmp b a := by
  unfold natCmp
  by_cases h1 : a < b
  · simp [h1, show ¬ b < a by omega, Ordering.swap]
  · by_cases h2 : b < a
    · simp [h1, h2, Ordering.swap]
    · simp [h1, h2, Ordering.swap]

theorem natCmp_eq_iff (a b : Nat) : natCmp a b = .eq ↔ a = b := by
  unfold natCmp
  by_cases h1 : a < b
  · simp [h1]; omega
  · by_cases h2 : b < a
    · simp [h1, h2]; omega
    · simp [h1, h2]; omega

theorem natCmp_lt_iff (a b : Nat) : natCmp a b = .lt ↔ a < b := by
  unfold natCmp
  by_cases h1 : a < b
  · simp [h1]
  · by_cases h2 : b < a
    · simp [h1, h2]
    · simp [h1, h2]

theorem lexCmp_eq_iff (a : List Char) : ∀ b, lexCmp a b = .eq ↔ a = b := by
  induction a with
  | nil => intro b; cases b <;> simp [lexCmp]
  | cons x xs ih =>
    intro b
    cases b with
    | nil => simp [lexCmp]
    | cons y ys =>
      unfold lexCmp
      by_cases h1 : x < y
      · simp only [if_pos h1]
        constructor
        · intro hx; cases hx
        · intro hx
          injection hx with he _
          exact absurd (he ▸ h1) (lt_irrefl y)
      · by_cases h2 : y < x
        · simp only [if_neg h1, if_pos h2]
          constructor
          · intro hx; cases hx
          · intro hx
            injection hx with he _
            exact absurd (he ▸ h2) (lt_irrefl y)
        · have hxy : x = y := le_antisymm (not_lt.mp h2) (not_lt.mp h1)
          subst hxy
          simp only [if_neg h1, if_neg h2, ih ys]
          constructor
          · intro hx; rw [hx]
          · intro hx
            injection hx

theorem lexCmp_swap (a : List Char) : ∀ b, (lexCmp a b).swap = lexCmp b a := by
  induction a with
  | nil => intro b; cases b <;> rfl
  | cons x xs ih =>
    intro b
    cases b with
    | nil => rfl
    | cons y ys =>
      unfold lexCmp
      by_cases h1 : x < y
      · have h2 : ¬ y < x := fun hx => absurd (lt_trans h1 hx) (lt_irrefl x)
        simp [h1, h2, Ordering.swap]
      · by_cases h2 : y < x
        · simp [h1, h2, Ordering.swap]
        · simp only [if_neg h1, if_neg h2]
          exact ih ys

/-- A `.lt` result on two non-empty lists means head-less-than or equal heads
with `.lt` tails. -/
theorem lexCmp_cons_lt_elim (x y : Char) (xs ys : List Char)
    (h : lexCmp (x :: xs) (y :: ys) = .lt) :
    x < y ∨ (x = y ∧ lexCmp xs ys = .lt) := by
  by_cases h1 : x < y
  · exact .inl h1
  · by_cases h2 : y < x
    · unfold lexCmp at h; rw [if_neg h1, if_pos h2] at h; cases h
    · have hxy : x = y := le_antisymm (not_lt.mp h2) (not_lt.mp h1)
      unfold lexCmp at h; rw [if_neg h1, if_neg h2] at h
      exact .inr ⟨hxy, h⟩

/-- Transitivity of the strict lexicographic comparison. -/
theorem lexCmp_trans (a : List Char) :
    ∀ b c, lexCmp a b = .lt → lexCmp b c = .lt → lexCmp a c = .lt := by
  induction a with
  | nil =>
    intro b c hab hbc
    cases c with
    | nil =>
      cases b with
      | nil => exact hab
      | cons y ys => cases hbc
    | cons z zs => rfl
  | cons x xs ih =>
    intro b c hab hbc
    cases b with
    | nil => cases hab
    | cons y ys =>
      cases c with
      | nil => cases hbc
      | cons z zs =>
        rcases lexCmp_cons_lt_elim x y xs ys hab with h1 | ⟨h1, h1t⟩ <;>
          rcases lexCmp_cons_lt_elim y z ys zs hbc with h2 | ⟨h2, h2t⟩
        · unfold lexCmp; rw [if_pos (lt_trans h1 h2)]
        · unfold lexCmp; rw [if_pos (h2 ▸ h1)]
        · unfold lexCmp; rw [if_pos (h1 ▸ h2)]
        · subst h1; subst h2
          unfold lexCmp
          rw [if_neg (lt_irrefl x), if_neg (lt_irrefl x)]
          exact ih ys zs h1t h2t

theorem partKeyCmp_swap (p q : ZPart) : (partKeyCmp p q).swap = partKeyCmp q p := by
  unfold partKeyCmp
  by_cases hp : isDigitPart p <;> by_cases hq : isDigitPart q <;>
    simp only [hp, hq, if_pos, if_neg, if_true, if_false, Bool.false_eq_true]
  · exact natCmp_swap _ _
  · rfl
  · rfl
  · exact lexCmp_swap p q

/-- A part that compares `.eq` is interchangeable on the left. -/
theorem partKeyCmp_eq_left (p q r : ZPart) (h : partKeyCmp p q = .eq) :
    partKeyCmp p r = partKeyCmp q r := by
  unfold partKeyCmp at h ⊢
  by_cases hp : isDigitPart p <;> by_cases hq : isDigitPart q <;>
    simp only [hp, hq, if_true, if_false, Bool.false_eq_true] at h ⊢
  · have hv : parseIntNat p = parseIntNat q := (natCmp_eq_iff _ _).mp h
    rw [hv]
  · cases h
  · cases h
  · have hv : p = q := (lexCmp_eq_iff p q).mp h
    rw [hv]

theorem partKeyCmp_lt_trans (p q r : ZPart)
    (h1 : partKeyCmp p q = .lt) (h2 : partKeyCmp q r = .lt) :
    partKeyCmp p r = .lt := by
  unfold partKeyCmp at h1 h2 ⊢
  by_cases hp : isDigitPart p <;> by_cases hq : isDigitPart q <;>
    by_cases hr : isDigitPart r <;>
    simp only [hp, hq, hr, if_true, if_false, Bool.false_eq_true] at h1 h2 ⊢ <;>
    first
      | rfl
      | (exact absurd h1 (by decide))
      | (exact absurd h2 (by decide))
      | (rw [natCmp_lt_iff] at h1 h2 ⊢; omega)
      | (exact lexCmp_trans p q r h1 h2)

/-- A part that compares `.eq` is interchangeable on the right. -/
theorem partKeyCmp_eq_right (p q r : ZPart) (h : partKeyCmp q r = .eq) :
    partKeyCmp p q = partKeyCmp p r := by
  have hrq : partKeyCmp r q = .eq := by rw [← partKeyCmp_swap q r, h]; rfl
  have hl := partKeyCmp_eq_left r q p hrq
  calc partKeyCmp p q = (partKeyCmp q p).swap := by rw [partKeyCmp_swap]
    _ = (partKeyCmp r p).swap := by rw [hl]
    _ = partKeyCmp p r := by rw [partKeyCmp_swap]

/-- Antisymmetry of `zettelCmp` in `swap` form. -/
theorem zettelCmp_swap (a : List ZPart) : ∀ b, (zettelCmp a b).swap = zettelCmp b a := by
  induction a with
  | nil => intro b; cases b <;> rfl
  | cons p ps ih =>
    intro b
    cases b with
    | nil => rfl
    | cons q qs =>
      unfold zettelCmp
      cases hpq : partKeyCmp p q with
      | eq =>
        have : partKeyCmp q p = .eq := by rw [← partKeyCmp_swap, hpq]; rfl
        rw [this]
        exact ih qs
      | lt =>
        have : partKeyCmp q p = .gt := by rw [← partKeyCmp_swap, hpq]; rfl
        rw [this]
        rfl
      | gt =>
        have : partKeyCmp q p = .lt := by rw [← partKeyCmp_swap, hpq]; rfl
        rw [this]
        rfl

/-- `zettelCmp` returns `.eq` exactly on pointwise key-equal lists. -/
theorem zettelCmp_eq_iff (a : List ZPart) :
    ∀ b, zettelCmp a b = .eq ↔ List.Forall₂ (fun p q => partKeyCmp p q = .eq) a b := by
  induction a with
  | nil =>
    intro b
    cases b with
    | nil => simp [zettelCmp]
    | cons q qs => simp [zettelCmp]
  | cons p ps ih =>
    intro b
    cases b with
    | nil => simp [zettelCmp]
    | cons q qs =>
      unfold zettelCmp
      cases hpq : partKeyCmp p q with
      | eq =>
        rw [ih qs]
        constructor
        · intro h; exact List.Forall₂.cons hpq h
        · intro h; cases h; assumption
      | lt =>
        constructor
        · intro h; cases h
        · intro h; cases h; simp_all
      | gt =>
        constructor
        · intro h; cases h
        · intro h; cases h; simp_all

/-- Transitivity of `zettelCmp` at `.lt`. -/
theorem zettelCmp_lt_trans (a : List ZPart) :
    ∀ b c, zettelCmp a b = .lt → zettelCmp b c = .lt → zettelCmp a c = .lt := by
  induction a with
  | nil =>
    intro b c hab hbc
    cases c with
    | nil =>
      cases b with
      | nil => exact hab
      | cons q qs => cases hbc
    | cons r rs => rfl
  | cons p ps ih =>
    intro b c hab hbc
    cases b with
    | nil => cases hab
    | cons q qs =>
      cases c with
      | nil => cases hbc
      | cons r rs =>
        unfold zettelCmp at hab hbc ⊢
        cases hpq : partKeyCmp p q with
        | gt => rw [hpq] at hab; cases hab
        | lt =>
          rw [hpq] at hab
          cases hqr : partKeyCmp q r with
          | gt => rw [hqr] at hbc; cases hbc
          | lt => rw [partKeyCmp_lt_trans p q r hpq hqr]
          | eq =>
            have hpr : partKeyCmp p r = .lt := by
              rw [← partKeyCmp_eq_right p q r hqr]
              exact hpq
            rw [hpr]
        | eq =>
          rw [hpq] at hab
          cases hqr : partKeyCmp q r with
          | gt => rw [hqr] at hbc; cases hbc
          | lt =>
            have : partKeyCmp p r = .lt := by
              rw [partKeyCmp_eq_left p q r hpq, hqr]
            rw [this]
          | eq =>
            have hpr : partKeyCmp p r = .eq := by
              rw [partKeyCmp_eq_left p q r hpq, hqr]
            rw [hqr] at hbc
            rw [hpr]
            exact ih qs rs hab hbc

/-- `intSign` of the `Ordering`-to-JS-number embedding is the identity. -/
theorem intSign_toInt (o : Ordering) : intSign o.toInt = o := by
  cases o <;> rfl

/-- The sign of `compareZettelIds` is exactly the three-way comparison
`zettelCmp` (the magnitudes `numA - numB` and `length` differences carry no
extra ordering information). -/
theorem compareZettelIds_sign (a : List ZPart) :
    ∀ b, intSign (compareZettelIds a b) = zettelCmp a b := by
  induction a with
  | nil =>
    intro b
    cases b with
    | nil => rfl
    | cons q qs =>
      show intSign ((0 : Int) - (qs.length + 1 : Nat)) = .lt
      unfold intSign
      rw [if_pos (by omega)]
  | cons p ps ih =>
    intro b
    cases b with
    | nil =>
      show intSign ((ps.length + 1 : Nat) - (0 : Int)) = .gt
      unfold intSign
      rw [if_neg (by omega), if_neg (by omega)]
    | cons q qs =>
      show intSign (compareZettelIds (p :: ps) (q :: qs)) = zettelCmp (p :: ps) (q :: qs)
      unfold compareZettelIds zettelCmp partKeyCmp
      by_cases hp : isDigitPart p
      · by_cases hq : isDigitPart q
        · simp only [hp, hq, if_true]
          by_cases hv : parseIntNat p = parseIntNat q
          · rw [if_neg (by simpa using hv)]
            have : natCmp (parseIntNat p) (parseIntNat q) = .eq := (natCmp_eq_iff _ _).mpr hv
            rw [this]
            exact ih qs
          · rw [if_pos hv]
            unfold natCmp intSign
            by_cases hlt : parseIntNat p < parseIntNat q
            · rw [if_pos hlt, if_pos (by omega)]
            · rw [if_neg hlt]
              have hgt : parseIntNat q < parseIntNat p := by omega
              rw [if_pos hgt, if_neg (by omega), if_neg (by omega)]
        · simp only [hp, hq, if_true, if_false, Bool.false_eq_true]
          rfl
      · by_cases hq : isDigitPart q
        · simp only [hp, hq, if_true, if_false, Bool.false_eq_true]
          rfl
        · simp only [hp, hq, if_false, Bool.false_eq_true]
          by_cases hpq : p = q
          · subst hpq
            rw [if_neg (by simp)]
            have : lexCmp p p = .eq := (lexCmp_eq_iff p p).mpr rfl
            rw [this]
            exact ih qs
          · rw [if_pos (by simpa using hpq)]
            have : lexCmp p q ≠ .eq := fun h => hpq ((lexCmp_eq_iff p q).mp h)
            cases hl : lexCmp p q with
            | lt => rw [intSign_toInt]
            | eq => exact absurd hl this
            | gt => rw [intSign_toInt]

/-- The sign characterizations of `compareZettelIds` via `zettelCmp`. -/
theorem compareZettelIds_lt_iff (a b : List ZPart) :
    compareZettelIds a b < 0 ↔ zettelCmp a b = .lt := by
  rw [← compareZettelIds_sign a b]
  unfold intSign
  by_cases h : compareZettelIds a b < 0
  · simp [h]
  · by_cases h0 : compareZettelIds a b = 0 <;> simp [h, h0]

theorem compareZettelIds_eq_zero_iff (a b : List ZPart) :
    compareZettelIds a b = 0 ↔ zettelCmp a b = .eq := by
  rw [← compareZettelIds_sign a b]
  unfold intSign
  by_cases h : compareZettelIds a b < 0
  · simp [h]; omega
  · by_cases h0 : compareZettelIds a b = 0 <;> simp [h, h0]

theorem compareZettelIds_gt_iff (a b : List ZPart) :
    0 < compareZettelIds a b ↔ zettelCmp a b = .gt := by
  rw [← compareZettelIds_sign a b]
  unfold intSign
  by_cases h : compareZettelIds a b < 0
  · simp [h]; omega
  · by_cases h0 : compareZettelIds a b = 0
    · simp [h, h0]
    · simp [h, h0]; omega

/-- Claim C3, counterexample: the comparator's result is NOT confined to
`{-1, 0, 1}` (two parser-produced identifiers compare to `3`), and a zero
result does NOT imply equal `parts`: the parser accepts both `a01` and `a1`,
whose distinct parts compare equal because digit runs compare by numeric
value. -/
theorem C3_counterexample :
    compareZettelIds [['a'], ['5']] [['a'], ['2']] = 3 ∧
    (parseZettelId ['a', '5']).map ZettelId.parts = some [['a'], ['5']] ∧
    (parseZettelId ['a', '2']).map ZettelId.parts = some [['a'], ['2']] ∧
    compareZettelIds [['a'], ['0', '1']] [['a'], ['1']] = 0 ∧
    [['a'], ['0', '1']] ≠ [['a'], ['1']] ∧
    (parseZettelId ['a', '0', '1']).map ZettelId.parts = some [['a'], ['0', '1']] ∧
    (parseZettelId ['a', '1']).map ZettelId.parts = some [['a'], ['1']] := by
  refine ⟨by decide, by decide, by decide, by decide, by decide, by decide, by decide⟩

/-- Claim C3, amended: the SIGN of `compareZettelIds` is a strict total
preorder on all part lists: `compare a b = 0` exactly when the two lists are
pointwise key-equal (equal numeric value for digit runs, equal text for
letter runs — NOT necessarily equal parts, e.g. `01` vs `1`); `compare a b`
and `compare b a` always have opposite signs when non-zero; and negative
results compose transitively.  The result itself is an arbitrary integer
(`numA - numB`, `localeCompare`, or a length difference), not `{-1,0,1}`. -/
theorem C3_compare_order :
    (∀ a b : List ZPart, compareZettelIds a b = 0 ↔
      List.Forall₂ (fun p q => partKeyCmp p q = .eq) a b) ∧
    (∀ a b : List ZPart, compareZettelIds a b < 0 ↔ 0 < compareZettelIds b a) ∧
    (∀ a b c : List ZPart, compareZettelIds a b < 0 → compareZettelIds b c < 0 →
      compareZettelIds a c < 0) := by
  refine ⟨fun a b => ?_, fun a b => ?_, fun a b c h1 h2 => ?_⟩
  · rw [compareZettelIds_eq_zero_iff, zettelCmp_eq_iff]
  · rw [compareZettelIds_lt_iff, compareZettelIds_gt_iff]
    constructor
    · intro h
      rw [← zettelCmp_swap a b, h]
      rfl
    · intro h
      have := zettelCmp_swap a b
      rw [h] at this
      cases hab : zettelCmp a b <;> rw [hab] at this <;> first | rfl | cases this
  · rw [compareZettelIds_lt_iff] at h1 h2 ⊢
    exact zettelCmp_lt_trans a b c h1 h2

/-- Witness for C3: the transitivity component applied at concrete inputs. -/
theorem C3_compare_order_witness :
    compareZettelIds [['a']] [['a'], ['1']] < 0 ∧
    compareZettelIds [['a'], ['1']] [['b']] < 0 ∧
    compareZettelIds [['a']] [['b']] < 0 :=
  ⟨by decide, by decide,
    C3_compare_order.2.2 [['a']] [['a'], ['1']] [['b']] (by decide) (by decide)⟩

/-! ## C2: round-tripping parts through `joinParts` -/

/-- A non-empty all-letter token. -/
def isLetterRun (p : ZPart) : Bool := decide (p ≠ []) && p.all isLowerAZ

/-- A non-empty all-digit token. -/
def isDigitRun (p : ZPart) : Bool := decide (p ≠ []) && p.all isDigit09

/-- A token as produced by the tokenizer: a letter run or a digit run. -/
def isTokenRun (p : ZPart) : Bool := isLetterRun p || isDigitRun p

theorem digit_not_lower (c : Char) (h : isDigit09 c = true) : isLowerAZ c = false := by
  simp only [isDigit09, Bool.and_eq_true, decide_eq_true_eq] at h
  simp only [isLowerAZ, Bool.and_eq_false_iff, decide_eq_false_iff_not, not_le]
  left
  calc c ≤ '9' := h.2
    _ < 'a' := by decide

theorem lower_not_digit (c : Char) (h : isLowerAZ c = true) : isDigit09 c = false := by
  simp only [isLowerAZ, Bool.and_eq_true, decide_eq_true_eq] at h
  simp only [isDigit09, Bool.and_eq_false_iff, decide_eq_false_iff_not, not_le]
  right
  calc '9' < 'a' := by decide
    _ ≤ c := h.1

theorem isDigitRun_isDigitPart (p : ZPart) (h : isDigitRun p = true) : isDigitPart p = true := by
  cases p with
  | nil => simp [isDigitRun] at h
  | cons c cs =>
    simp only [isDigitRun, List.all_cons, Bool.and_eq_true] at h
    exact h.2.1

theorem isLetterRun_not_isDigitPart (p : ZPart) (h : isLetterRun p = true) :
    isDigitPart p = false := by
  cases p with
  | nil => simp [isLetterRun] at h
  | cons c cs =>
    simp only [isLetterRun, List.all_cons, Bool.and_eq_true] at h
    exact lower_not_digit c h.2.1 ▸ rfl

/-- A predicate that holds on every element takes `takeWhile` to the whole
list and `dropWhile` to the empty list. -/
theorem takeWhile_all_eq (q : Char → Bool) (l : List Char) (h : ∀ x ∈ l, q x = true) :
    l.takeWhile q = l ∧ l.dropWhile q = [] := by
  induction l with
  | nil => exact ⟨rfl, rfl⟩
  | cons c cs ih =>
    have hc : q c = true := h c (by simp)
    have iht := ih (fun x hx => h x (by simp [hx]))
    rw [List.takeWhile_cons_of_pos hc, List.dropWhile_cons_of_pos hc]
    exact ⟨by rw [iht.1], iht.2⟩

/-- Spanning a run: `takeWhile` over `run ++ X` stops exactly at `X` when the
head of `X` fails the predicate. -/
theorem span_run_append (q : Char → Bool) (p X : List Char)
    (hall : ∀ x ∈ p, q x = true)
    (hX : ∀ x, X.head? = some x → q x = false) :
    (p ++ X).takeWhile q = p ∧ (p ++ X).dropWhile q = X := by
  induction p with
  | nil =>
    simp only [List.nil_append]
    cases X with
    | nil => exact ⟨rfl, rfl⟩
    | cons x xs =>
      have hx : q x = false := hX x rfl
      rw [List.takeWhile_cons_of_neg (by simp [hx]), List.dropWhile_cons_of_neg (by simp [hx])]
      exact ⟨rfl, rfl⟩
  | cons c cs ih =>
    have hc : q c = true := hall c (by simp)
    have iht := ih (fun x hx => hall x (by simp [hx]))
    simp only [List.cons_append]
    rw [List.takeWhile_cons_of_pos hc, List.dropWhile_cons_of_pos hc]
    exact ⟨by rw [iht.1], iht.2⟩

/-- Tokenizing after a skipped decimal point. -/
theorem tokenizeParts_dot (l : List Char) : tokenizeParts ('.' :: l) = tokenizeParts l := by
  rw [tokenizeParts_cons]
  rw [if_neg (by decide), if_neg (by decide)]

/-- Tokenizing a letter run followed by a non-letter boundary. -/
theorem tokenizeParts_letter_run (p X : List Char) (hp : isLetterRun p = true)
    (hX : ∀ x, X.head? = some x → isLowerAZ x = false) :
    tokenizeParts (p ++ X) = p :: tokenizeParts X := by
  cases p with
  | nil => simp [isLetterRun] at hp
  | cons c cs =>
    simp only [isLetterRun, List.all_cons, Bool.and_eq_true, decide_eq_true_eq] at hp
    have hall : ∀ x ∈ c :: cs, isLowerAZ x = true := by
      intro x hx
      rcases List.mem_cons.mp hx with h | h
      · exact h ▸ hp.2.1
      · exact List.all_eq_true.mp hp.2.2 x h
    have hspan := span_run_append isLowerAZ (c :: cs) X hall hX
    rw [List.cons_append, tokenizeParts_cons,
      if_pos (hall c (by simp))]
    rw [← List.cons_append]
    rw [hspan.1, hspan.2]

/-- Tokenizing a digit run followed by a non-digit boundary. -/
theorem tokenizeParts_digit_run (p X : List Char) (hp : isDigitRun p = true)
    (hX : ∀ x, X.head? = some x → isDigit09 x = false) :
    tokenizeParts (p ++ X) = p :: tokenizeParts X := by
  cases p with
  | nil => simp [isDigitRun] at hp
  | cons c cs =>
    simp only [isDigitRun, List.all_cons, Bool.and_eq_true, decide_eq_true_eq] at hp
    have hall : ∀ x ∈ c :: cs, isDigit09 x = true := by
      intro x hx
      rcases List.mem_cons.mp hx with h | h
      · exact h ▸ hp.2.1
      · exact List.all_eq_true.mp hp.2.2 x h
    have hspan := span_run_append isDigit09 (c :: cs) X hall hX
    rw [List.cons_append, tokenizeParts_cons,
      if_neg (by rw [digit_not_lower c (hall c (by simp))]; exact fun h => nomatch h),
      if_pos (hall c (by simp))]
    rw [← List.cons_append]
    rw [hspan.1, hspan.2]

/-- The first character of `joinRest b ts` is a point or the head of the
first part. -/
theorem joinRest_head (b : Bool) (p : ZPart) (ts : List ZPart) :
    joinRest b (p :: ts) =
      (if b = isDigitPart p then ['.'] else []) ++ p ++ joinRest (isDigitPart p) ts := rfl

/-- Serialization followed by tokenization is the identity on lists of token
runs: the inserted points separate equal-kind neighbours and a kind change
separates the rest. -/
theorem tokenizeParts_joinRest (ts : List ZPart) :
    ∀ b, (∀ p ∈ ts, isTokenRun p = true) → tokenizeParts (joinRest b ts) = ts := by
  induction ts with
  | nil => intro b _; rfl
  | cons p rest ih =>
    intro b hall
    have hp : isTokenRun p = true := hall p (by simp)
    have hrest : ∀ q ∈ rest, isTokenRun q = true := fun q hq => hall q (by simp [hq])
    -- the boundary after `p` never continues `p`'s own run
    have hboundary : ∀ x, (joinRest (isDigitPart p) rest).head? = some x →
        (isDigitPart p = true → isDigit09 x = false) ∧
        (isDigitPart p = false → isLowerAZ x = false) := by
      intro x hx
      cases rest with
      | nil => simp [joinRest] at hx
      | cons q qs =>
        rw [joinRest_head] at hx
        by_cases hk : isDigitPart p = isDigitPart q
        · rw [if_pos hk] at hx
          simp only [List.cons_append, List.head?_cons, Option.some.injEq] at hx
          subst hx
          exact ⟨fun _ => by decide, fun _ => by decide⟩
        · rw [if_neg hk] at hx
          have hq : isTokenRun q = true := hrest q (by simp)
          cases q with
          | nil => simp [isTokenRun, isLetterRun, isDigitRun] at hq
          | cons y ys =>
            simp only [List.nil_append, List.cons_append, List.head?_cons,
              Option.some.injEq] at hx
            constructor
            · intro hpd
              have hqd : isDigitPart (y :: ys) = false := by
                cases hv : isDigitPart (y :: ys)
                · rfl
                · exact absurd (hpd.trans hv.symm) hk
              rw [← hx]
              exact hqd
            · intro hpd
              have hqd : isDigitPart (y :: ys) = true := by
                cases hv : isDigitPart (y :: ys)
                · exact absurd (hpd.trans hv.symm) hk
                · rfl
              rw [← hx]
              exact digit_not_lower y hqd
    have hrun : isLetterRun p = true ∨ isDigitRun p = true := by
      rcases Bool.or_eq_true_iff.mp (by simpa [isTokenRun] using hp) with h | h
      · exact Or.inl h
      · exact Or.inr h
    have hcore : tokenizeParts (p ++ joinRest (isDigitPart p) rest) = p :: rest := by
      rcases hrun with hl | hd
      · rw [tokenizeParts_letter_run p _ hl (fun x hx =>
          (hboundary x hx).2 (isLetterRun_not_isDigitPart p hl))]
        rw [ih (isDigitPart p) hrest]
      · rw [tokenizeParts_digit_run p _ hd (fun x hx =>
          (hboundary x hx).1 (isDigitRun_isDigitPart p hd))]
        rw [ih (isDigitPart p) hrest]
    rw [joinRest_head]
    by_cases hb : b = isDigitPart p
    · rw [if_pos hb]
      simp only [List.cons_append, List.nil_append, List.append_assoc]
      rw [tokenizeParts_dot]
      exact hcore
    · rw [if_neg hb]
      simp only [List.nil_append]
      exact hcore

/-- The shape of the token lists the identifier grammar can produce, after
the leading single letter.  State 0: positioned after letters (or at the
start); state 1: after the first digit run of a group; state 2: after a
point-attached second digit run.  A third consecutive digit run can only be
the trailing `.digits` group, so it must end the identifier. -/
inductive Shape : Nat → List ZPart → Prop
  | nil (s : Nat) : Shape s []
  | consD0 (d : ZPart) (ts : List ZPart) : isDigitRun d = true → Shape 1 ts → Shape 0 (d :: ts)
  | consL1 (l : ZPart) (ts : List ZPart) : isLetterRun l = true → Shape 0 ts → Shape 1 (l :: ts)
  | consD1 (d : ZPart) (ts : List ZPart) : isDigitRun d = true → Shape 2 ts → Shape 1 (d :: ts)
  | consL2 (l : ZPart) (ts : List ZPart) : isLetterRun l = true → Shape 0 ts → Shape 2 (l :: ts)
  | consD2 (d : ZPart) : isDigitRun d = true → Shape 2 [d]

/-- Every part of a shaped list is a token run. -/
theorem shape_runs (s : Nat) (ts : List ZPart) (h : Shape s ts) :
    ∀ p ∈ ts, isTokenRun p = true := by
  induction h with
  | nil => intro p hp; cases hp
  | consD0 d ts hd _ ih =>
    intro p hp
    rcases List.mem_cons.mp hp with h | h
    · subst h; simp [isTokenRun, hd]
    · exact ih p h
  | consL1 l ts hl _ ih =>
    intro p hp
    rcases List.mem_cons.mp hp with h | h
    · subst h; simp [isTokenRun, hl]
    · exact ih p h
  | consD1 d ts hd _ ih =>
    intro p hp
    rcases List.mem_cons.mp hp with h | h
    · subst h; simp [isTokenRun, hd]
    · exact ih p h
  | consL2 l ts hl _ ih =>
    intro p hp
    rcases List.mem_cons.mp hp with h | h
    · subst h; simp [isTokenRun, hl]
    · exact ih p h
  | consD2 d hd =>
    intro p hp
    rcases List.mem_cons.mp hp with h | h
    · subst h; simp [isTokenRun, hd]
    · cases h

/-- A non-empty state-0 list starts with a digit run. -/
theorem shape0_head_digit (p : ZPart) (ts : List ZPart) (h : Shape 0 (p :: ts)) :
    isDigitRun p = true := by
  cases h with
  | consD0 _ _ hd _ => exact hd

/-- The serialized text of a state-0 tail starts with a digit (or is empty). -/
theorem joinRest_shape0_head (ts : List ZPart) (h : Shape 0 ts) :
    ∀ x, (joinRest false ts).head? = some x → isDigit09 x = true := by
  intro x hx
  cases ts with
  | nil => simp [joinRest] at hx
  | cons p ps =>
    have hd : isDigitRun p = true := shape0_head_digit p ps h
    rw [joinRest_head] at hx
    rw [if_neg (by rw [isDigitRun_isDigitPart p hd]; exact fun hcon => nomatch hcon)] at hx
    cases p with
    | nil => simp [isDigitRun] at hd
    | cons y ys =>
      simp only [List.nil_append, List.cons_append, List.head?_cons, Option.some.injEq] at hx
      subst hx
      simp only [isDigitRun, List.all_cons, Bool.and_eq_true] at hd
      exact hd.2.1

theorem digit_ne_dot (c : Char) (h : isDigit09 c = true) : c ≠ '.' := by
  intro he
  subst he
  exact absurd h (by decide)

theorem lower_ne_dot (c : Char) (h : isLowerAZ c = true) : c ≠ '.' := by
  intro he
  subst he
  exact absurd h (by decide)

/-- `attachDotDigits` is the identity when the remainder does not start with
a point. -/
theorem attachDotDigits_not_dot (y : Char) (rest : List Char) (h : y ≠ '.') :
    attachDotDigits (y :: rest) = y :: rest := by
  unfold attachDotDigits
  split
  · rename_i c2 rest2 heq
    injection heq with h1 _
    exact absurd h1 h
  · rfl

/-- `attachDotDigits` consumes a point followed by a full digit run. -/
theorem attachDotDigits_dot_run (d2 R : List Char) (hd : isDigitRun d2 = true)
    (hR : ∀ x, R.head? = some x → isDigit09 x = false) :
    attachDotDigits ('.' :: (d2 ++ R)) = R := by
  cases d2 with
  | nil => simp [isDigitRun] at hd
  | cons c2 r2 =>
    simp only [isDigitRun, List.all_cons, Bool.and_eq_true, decide_eq_true_eq] at hd
    have hall : ∀ x ∈ c2 :: r2, isDigit09 x = true := by
      intro x hx
      rcases List.mem_cons.mp hx with h | h
      · exact h ▸ hd.2.1
      · exact List.all_eq_true.mp hd.2.2 x h
    have hspan := span_run_append isDigit09 (c2 :: r2) R hall hR
    show attachDotDigits ('.' :: c2 :: (r2 ++ R)) = R
    rw [show attachDotDigits ('.' :: c2 :: (r2 ++ R)) =
      (if isDigit09 c2 then (c2 :: (r2 ++ R)).dropWhile isDigit09
       else '.' :: c2 :: (r2 ++ R)) from rfl]
    rw [if_pos hd.2.1]
    have he : c2 :: (r2 ++ R) = (c2 :: r2) ++ R := rfl
    rw [he, hspan.2]

/-- Matching a text that begins with a digit run reduces to matching the
remainder after the optional point group and the letters. -/
theorem matchGroups_digit_start (d1 X : List Char) (hd : isDigitRun d1 = true)
    (hX : ∀ x, X.head? = some x → isDigit09 x = false) :
    matchGroups (d1 ++ X) = matchGroups ((attachDotDigits X).dropWhile isLowerAZ) := by
  cases d1 with
  | nil => simp [isDigitRun] at hd
  | cons c cs =>
    simp only [isDigitRun, List.all_cons, Bool.and_eq_true, decide_eq_true_eq] at hd
    have hall : ∀ x ∈ c :: cs, isDigit09 x = true := by
      intro x hx
      rcases List.mem_cons.mp hx with h | h
      · exact h ▸ hd.2.1
      · exact List.all_eq_true.mp hd.2.2 x h
    have hspan := span_run_append isDigit09 (c :: cs) X hall hX
    show matchGroups (c :: (cs ++ X)) = _
    rw [matchGroups_cons, if_neg (digit_ne_dot c hd.2.1), if_pos hd.2.1]
    unfold groupStep
    have hdw : (c :: (cs ++ X)).dropWhile isDigit09 = X := by
      have := hspan.2
      simpa using this
    rw [hdw]

theorem matchGroups_dot (rest : List Char) :
    matchGroups ('.' :: rest) =
      (decide (rest.takeWhile isDigit09 ≠ []) && decide (rest.dropWhile isDigit09 = [])) := by
  rw [matchGroups_cons]
  rw [if_pos rfl]

/-- A letter run has a letter head. -/
theorem letterRun_head (l : ZPart) (hl : isLetterRun l = true) :
    ∀ x R, (l ++ R).head? = some x → isLowerAZ x = true := by
  intro x R hx
  cases l with
  | nil => simp [isLetterRun] at hl
  | cons y ys =>
    simp only [isLetterRun, List.all_cons, Bool.and_eq_true, decide_eq_true_eq] at hl
    simp only [List.cons_append, List.head?_cons, Option.some.injEq] at hx
    exact hx ▸ hl.2.1

/-- Dropping letters from a letter run glued to a non-letter remainder. -/
theorem dropWhile_letter_run (l R : List Char) (hl : isLetterRun l = true)
    (hR : ∀ x, R.head? = some x → isLowerAZ x = false) :
    (l ++ R).dropWhile isLowerAZ = R := by
  cases l with
  | nil => simp [isLetterRun] at hl
  | cons y ys =>
    simp only [isLetterRun, List.all_cons, Bool.and_eq_true, decide_eq_true_eq] at hl
    have hall : ∀ x ∈ y :: ys, isLowerAZ x = true := by
      intro x hx
      rcases List.mem_cons.mp hx with h | h
      · exact h ▸ hl.2.1
      · exact List.all_eq_true.mp hl.2.2 x h
    exact (span_run_append isLowerAZ (y :: ys) R hall hR).2

/-- Heads of state-0 serialized tails are never letters. -/
theorem joinRest_shape0_not_letter (ts : List ZPart) (h : Shape 0 ts) :
    ∀ x, (joinRest false ts).head? = some x → isLowerAZ x = false := by
  intro x hx
  exact digit_not_lower x (joinRest_shape0_head ts h x hx)

/-- The serialized text of any shaped token list is accepted by the grammar
recogniser, in each of the three states. -/
theorem shape_accept (s : Nat) (ts : List ZPart) (h : Shape s ts) :
    (s = 0 → matchGroups (joinRest false ts) = true) ∧
    (s = 1 → ∀ d1, isDigitRun d1 = true → matchGroups (d1 ++ joinRest true ts) = true) ∧
    (s = 2 → ∀ d1 d2, isDigitRun d1 = true → isDigitRun d2 = true →
      matchGroups (d1 ++ '.' :: (d2 ++ joinRest true ts)) = true) := by
  induction h with
  | nil s =>
    refine ⟨fun _ => rfl, fun _ d1 hd1 => ?_, fun _ d1 d2 hd1 hd2 => ?_⟩
    · rw [show joinRest true ([] : List ZPart) = [] from rfl]
      rw [matchGroups_digit_start d1 [] hd1 (by intro x hx; cases hx)]
      rfl
    · rw [show joinRest true ([] : List ZPart) = [] from rfl]
      rw [matchGroups_digit_start d1 ('.' :: (d2 ++ [])) hd1
        (by intro x hx; simp only [List.head?_cons, Option.some.injEq] at hx; subst hx; decide)]
      rw [attachDotDigits_dot_run d2 [] hd2 (by intro x hx; cases hx)]
      rfl
  | consD0 d ts hd hs ih =>
    refine ⟨fun _ => ?_, fun hcon => absurd hcon (by decide),
      fun hcon => absurd hcon (by decide)⟩
    rw [joinRest_head,
      if_neg (by rw [isDigitRun_isDigitPart d hd]; exact fun hcon => nomatch hcon)]
    simp only [List.nil_append]
    rw [isDigitRun_isDigitPart d hd]
    exact ih.2.1 rfl d hd
  | consL1 l ts hl hs ih =>
    refine ⟨fun hcon => absurd hcon (by decide), fun _ d1 hd1 => ?_,
      fun hcon => absurd hcon (by decide)⟩
    rw [joinRest_head,
      if_neg (by rw [isLetterRun_not_isDigitPart l hl]; exact fun hcon => nomatch hcon)]
    simp only [List.nil_append]
    rw [isLetterRun_not_isDigitPart l hl]
    rw [matchGroups_digit_start d1 (l ++ joinRest false ts) hd1
      (fun x hx => lower_not_digit x (letterRun_head l hl x _ hx))]
    cases l with
    | nil => simp [isLetterRun] at hl
    | cons y ys =>
      have hy : isLowerAZ y = true := by
        simp only [isLetterRun, List.all_cons, Bool.and_eq_true] at hl
        exact hl.2.1
      rw [show (y :: ys) ++ joinRest false ts = y :: (ys ++ joinRest false ts) from rfl]
      rw [attachDotDigits_not_dot y _ (lower_ne_dot y hy)]
      rw [show y :: (ys ++ joinRest false ts) = (y :: ys) ++ joinRest false ts from rfl]
      rw [dropWhile_letter_run (y :: ys) (joinRest false ts) hl
        (joinRest_shape0_not_letter ts hs)]
      exact ih.1 rfl
  | consD1 d ts hd hs ih =>
    refine ⟨fun hcon => absurd hcon (by decide), fun _ d1 hd1 => ?_,
      fun hcon => absurd hcon (by decide)⟩
    rw [joinRest_head,
      if_pos (by rw [isDigitRun_isDigitPart d hd])]
    simp only [List.cons_append, List.nil_append]
    rw [isDigitRun_isDigitPart d hd]
    exact ih.2.2 rfl d1 d hd1 hd
  | consL2 l ts hl hs ih =>
    refine ⟨fun hcon => absurd hcon (by decide), fun hcon => absurd hcon (by decide),
      fun _ d1 d2 hd1 hd2 => ?_⟩
    rw [joinRest_head,
      if_neg (by rw [isLetterRun_not_isDigitPart l hl]; exact fun hcon => nomatch hcon)]
    simp only [List.nil_append]
    rw [isLetterRun_not_isDigitPart l hl]
    rw [matchGroups_digit_start d1 ('.' :: (d2 ++ (l ++ joinRest false ts))) hd1
      (by intro x hx; simp only [List.head?_cons, Option.some.injEq] at hx; subst hx; decide)]
    rw [attachDotDigits_dot_run d2 (l ++ joinRest false ts) hd2
      (fun x hx => lower_not_digit x (letterRun_head l hl x _ hx))]
    rw [dropWhile_letter_run l (joinRest false ts) hl (joinRest_shape0_not_letter ts hs)]
    exact ih.1 rfl
  | consD2 d hd =>
    refine ⟨fun hcon => absurd hcon (by decide), fun hcon => absurd hcon (by decide),
      fun _ d1 d2 hd1 hd2 => ?_⟩
    rw [joinRest_head,
      if_pos (by rw [isDigitRun_isDigitPart d hd])]
    simp only [List.cons_append, List.nil_append]
    rw [show joinRest (isDigitPart d) ([] : List ZPart) = [] from rfl]
    rw [matchGroups_digit_start d1 ('.' :: (d2 ++ '.' :: (d ++ []))) hd1
      (by intro x hx; simp only [List.head?_cons, Option.some.injEq] at hx; subst hx; decide)]
    rw [attachDotDigits_dot_run d2 ('.' :: (d ++ [])) hd2
      (by intro x hx; simp only [List.head?_cons, Option.some.injEq] at hx; subst hx; decide)]
    rw [List.dropWhile_cons_of_neg (by decide)]
    rw [matchGroups_dot]
    rw [List.append_nil]
    have hall : ∀ x ∈ d, isDigit09 x = true := by
      intro x hx
      cases d with
      | nil => simp [isDigitRun] at hd
      | cons y ys =>
        simp only [isDigitRun, List.all_cons, Bool.and_eq_true, decide_eq_true_eq] at hd
        rcases List.mem_cons.mp hx with h | h
        · exact h ▸ hd.2.1
        · exact List.all_eq_true.mp hd.2.2 x h
    have hta := takeWhile_all_eq isDigit09 d hall
    rw [hta.1, hta.2]
    have hne : d ≠ [] := by
      cases d with
      | nil => simp [isDigitRun] at hd
      | cons y ys => exact fun hcon => nomatch hcon
    simp [hne]

/-- The head of a `dropWhile` result fails the predicate. -/
theorem dropWhile_head_false (q : Char → Bool) (l : List Char) (x : Char) (xs : List Char)
    (h : l.dropWhile q = x :: xs) : q x = false := by
  induction l with
  | nil => cases h
  | cons c cs ih =>
    by_cases hc : q c
    · rw [List.dropWhile_cons_of_pos hc] at h
      exact ih h
    · rw [List.dropWhile_cons_of_neg hc] at h
      injection h with h1 _
      rw [← h1]
      cases hv : q c
      · rfl
      · exact absurd hv hc

/-- `takeWhile` at a satisfying head yields a digit run. -/
theorem takeWhile_digitRun (c : Char) (cs : List Char) (h : isDigit09 c = true) :
    isDigitRun ((c :: cs).takeWhile isDigit09) = true := by
  rw [List.takeWhile_cons_of_pos h]
  have hall : ∀ x ∈ c :: cs.takeWhile isDigit09, isDigit09 x = true := by
    intro x hx
    rcases List.mem_cons.mp hx with h1 | h1
    · exact h1 ▸ h
    · exact List.mem_takeWhile_imp h1
  simp only [isDigitRun, Bool.and_eq_true, decide_eq_true_eq, List.all_eq_true]
  exact ⟨(by intro hcon; cases hcon), hall⟩

/-- `takeWhile` at a satisfying head yields a letter run. -/
theorem takeWhile_letterRun (c : Char) (cs : List Char) (h : isLowerAZ c = true) :
    isLetterRun ((c :: cs).takeWhile isLowerAZ) = true := by
  rw [List.takeWhile_cons_of_pos h]
  have hall : ∀ x ∈ c :: cs.takeWhile isLowerAZ, isLowerAZ x = true := by
    intro x hx
    rcases List.mem_cons.mp hx with h1 | h1
    · exact h1 ▸ h
    · exact List.mem_takeWhile_imp h1
  simp only [isLetterRun, Bool.and_eq_true, decide_eq_true_eq, List.all_eq_true]
  exact ⟨(by intro hcon; cases hcon), hall⟩

/-- Tokenizer step at a digit head. -/
theorem tokenizeParts_cons_digit (c : Char) (cs : List Char) (h : isDigit09 c = true) :
    tokenizeParts (c :: cs) =
      ((c :: cs).takeWhile isDigit09) :: tokenizeParts ((c :: cs).dropWhile isDigit09) := by
  rw [tokenizeParts_cons,
    if_neg (by rw [digit_not_lower c h]; exact fun hcon => nomatch hcon), if_pos h]

/-- Tokenizer step at a letter head. -/
theorem tokenizeParts_cons_letter (c : Char) (cs : List Char) (h : isLowerAZ c = true) :
    tokenizeParts (c :: cs) =
      ((c :: cs).takeWhile isLowerAZ) :: tokenizeParts ((c :: cs).dropWhile isLowerAZ) := by
  rw [tokenizeParts_cons, if_pos h]

/-- A pure digit run tokenizes to itself. -/
theorem tokenizeParts_run_digit_only (p : List Char) (hp : isDigitRun p = true) :
    tokenizeParts p = [p] := by
  have h := tokenizeParts_digit_run p [] hp (by intro x hx; cases hx)
  rw [List.append_nil] at h
  rw [h]
  rfl

/-- Every text accepted by the grammar recogniser tokenizes into a state-0
shaped token list. -/
theorem matchGroups_shape (n : Nat) :
    ∀ cs : List Char, cs.length ≤ n → matchGroups cs = true → Shape 0 (tokenizeParts cs) := by
  induction n with
  | zero =>
    intro cs hlen _
    have hnil : cs = [] := List.length_eq_zero.mp (by omega)
    subst hnil
    exact Shape.nil 0
  | succ n ih =>
    intro cs hlen hm
    cases cs with
    | nil => exact Shape.nil 0
    | cons c cs2 =>
      rw [matchGroups_cons] at hm
      by_cases hdot : c = '.'
      · -- the whole remaining text is the trailing `.digits`
        rw [if_pos hdot] at hm
        subst hdot
        simp only [Bool.and_eq_true, decide_eq_true_eq] at hm
        have hsplit := List.takeWhile_append_dropWhile isDigit09 cs2
        rw [hm.2, List.append_nil] at hsplit
        have hall : ∀ x ∈ cs2, isDigit09 x = true := by
          intro x hx
          exact List.mem_takeWhile_imp (l := cs2) (by rw [hsplit]; exact hx)
        have hrun : isDigitRun cs2 = true := by
          simp only [isDigitRun, Bool.and_eq_true, decide_eq_true_eq, List.all_eq_true]
          exact ⟨(by rw [← hsplit]; exact hm.1), hall⟩
        rw [tokenizeParts_dot, tokenizeParts_run_digit_only cs2 hrun]
        exact Shape.consD0 cs2 [] hrun (Shape.nil 1)
      · rw [if_neg hdot] at hm
        by_cases hdig : isDigit09 c
        · rw [if_pos hdig] at hm
          -- hm : matchGroups (groupStep c cs2) = true
          have hgslen : (groupStep c cs2).length ≤ n := by
            have := groupStep_length_lt c cs2 hdig
            simp only [List.length_cons] at this hlen
            omega
          have hd1run : isDigitRun ((c :: cs2).takeWhile isDigit09) = true :=
            takeWhile_digitRun c cs2 hdig
          rw [tokenizeParts_cons_digit c cs2 hdig]
          cases hr1 : (c :: cs2).dropWhile isDigit09 with
          | nil =>
            exact Shape.consD0 _ [] hd1run (Shape.nil 1)
          | cons c1 r1t =>
            have hc1d : isDigit09 c1 = false := dropWhile_head_false _ _ _ _ hr1
            by_cases hc1dot : c1 = '.'
            · subst hc1dot
              cases r1t with
              | nil =>
                -- text ends in a bare point: the recogniser rejects
                exfalso
                unfold groupStep at hm
                rw [hr1] at hm
                rw [show attachDotDigits ['.'] = ['.'] from rfl] at hm
                rw [List.dropWhile_cons_of_neg (by decide)] at hm
                rw [matchGroups_dot] at hm
                simp at hm
              | cons c2 r2t =>
                by_cases hc2 : isDigit09 c2
                · -- the point group `.digits` is attached
                  have hattach : attachDotDigits ('.' :: c2 :: r2t) =
                      (c2 :: r2t).dropWhile isDigit09 := by
                    rw [show attachDotDigits ('.' :: c2 :: r2t) =
                      (if isDigit09 c2 then (c2 :: r2t).dropWhile isDigit09
                       else '.' :: c2 :: r2t) from rfl]
                    rw [if_pos hc2]
                  have hd2run : isDigitRun ((c2 :: r2t).takeWhile isDigit09) = true :=
                    takeWhile_digitRun c2 r2t hc2
                  rw [tokenizeParts_dot, tokenizeParts_cons_digit c2 r2t hc2]
                  unfold groupStep at hm hgslen
                  rw [hr1, hattach] at hm hgslen
                  cases hr2 : (c2 :: r2t).dropWhile isDigit09 with
                  | nil =>
                    exact Shape.consD0 _ _ hd1run
                      (Shape.consD1 _ [] hd2run (Shape.nil 2))
                  | cons e r2tt =>
                    have hed : isDigit09 e = false := dropWhile_head_false _ _ _ _ hr2
                    rw [hr2] at hm hgslen
                    by_cases hel : isLowerAZ e
                    · -- a letter run follows; recurse at group start
                      rw [List.dropWhile_cons_of_pos hel] at hm hgslen
                      rw [tokenizeParts_cons_letter e r2tt hel,
                        List.dropWhile_cons_of_pos hel]
                      have hlsrun : isLetterRun ((e :: r2tt).takeWhile isLowerAZ) = true :=
                        takeWhile_letterRun e r2tt hel
                      have hshape := ih (r2tt.dropWhile isLowerAZ) hgslen hm
                      exact Shape.consD0 _ _ hd1run
                        (Shape.consD1 _ _ hd2run
                          (Shape.consL2 _ _ hlsrun hshape))
                    · -- no letters: the only continuation is the trailing `.digits`
                      rw [List.dropWhile_cons_of_neg hel] at hm
                      by_cases hedot : e = '.'
                      · subst hedot
                        rw [matchGroups_dot] at hm
                        simp only [Bool.and_eq_true, decide_eq_true_eq] at hm
                        have hsplit := List.takeWhile_append_dropWhile isDigit09 r2tt
                        rw [hm.2, List.append_nil] at hsplit
                        have hall : ∀ x ∈ r2tt, isDigit09 x = true := by
                          intro x hx
                          exact List.mem_takeWhile_imp (l := r2tt) (by rw [hsplit]; exact hx)
                        have hrun : isDigitRun r2tt = true := by
                          simp only [isDigitRun, Bool.and_eq_true, decide_eq_true_eq,
                            List.all_eq_true]
                          exact ⟨(by rw [← hsplit]; exact hm.1), hall⟩
                        rw [tokenizeParts_dot, tokenizeParts_run_digit_only r2tt hrun]
                        exact Shape.consD0 _ _ hd1run
                          (Shape.consD1 _ _ hd2run (Shape.consD2 r2tt hrun))
                      · exfalso
                        rw [matchGroups_cons, if_neg hedot, if_neg (by
                          rw [hed]; exact fun hcon => nomatch hcon)] at hm
                        cases hm
                · -- `.` not followed by a digit: the recogniser rejects
                  exfalso
                  unfold groupStep at hm
                  rw [hr1] at hm
                  rw [show attachDotDigits ('.' :: c2 :: r2t) =
                    (if isDigit09 c2 then (c2 :: r2t).dropWhile isDigit09
                     else '.' :: c2 :: r2t) from rfl] at hm
                  rw [if_neg hc2] at hm
                  rw [List.dropWhile_cons_of_neg (by decide)] at hm
                  rw [matchGroups_dot] at hm
                  rw [List.takeWhile_cons_of_neg hc2] at hm
                  simp at hm
            · -- no point group
              have hattach : attachDotDigits (c1 :: r1t) = c1 :: r1t :=
                attachDotDigits_not_dot c1 r1t hc1dot
              unfold groupStep at hm hgslen
              rw [hr1, hattach] at hm hgslen
              by_cases hc1l : isLowerAZ c1
              · rw [List.dropWhile_cons_of_pos hc1l] at hm hgslen
                rw [tokenizeParts_cons_letter c1 r1t hc1l,
                  List.dropWhile_cons_of_pos hc1l]
                have hlsrun : isLetterRun ((c1 :: r1t).takeWhile isLowerAZ) = true :=
                  takeWhile_letterRun c1 r1t hc1l
                have hshape := ih (r1t.dropWhile isLowerAZ) hgslen hm
                exact Shape.consD0 _ _ hd1run (Shape.consL1 _ _ hlsrun hshape)
              · exfalso
                rw [List.dropWhile_cons_of_neg hc1l] at hm
                rw [matchGroups_cons, if_neg hc1dot, if_neg (by
                  rw [hc1d]; exact fun hcon => nomatch hcon)] at hm
                cases hm
        · rw [if_neg hdig] at hm
          cases hm

/-- Every point in the text is immediately followed by a digit. -/
def dotsFollowed : List Char → Bool
  | [] => true
  | c :: rest => (if c = '.' then isDigitPart rest else true) && dotsFollowed rest

/-- Prepending point-free characters does not affect `dotsFollowed`. -/
theorem dotsFollowed_append (p : List Char) (hp : ∀ x ∈ p, x ≠ '.') :
    ∀ X, dotsFollowed (p ++ X) = dotsFollowed X := by
  induction p with
  | nil => intro X; rfl
  | cons c cs ih =>
    intro X
    have hc : c ≠ '.' := hp c (by simp)
    show ((if c = '.' then isDigitPart (cs ++ X) else true) && dotsFollowed (cs ++ X)) = _
    rw [if_neg hc, Bool.true_and, ih (fun x hx => hp x (by simp [hx])) X]

theorem letterRun_no_dot (l : ZPart) (hl : isLetterRun l = true) : ∀ x ∈ l, x ≠ '.' := by
  intro x hx
  simp only [isLetterRun, Bool.and_eq_true, List.all_eq_true] at hl
  exact lower_ne_dot x (hl.2 x hx)

theorem digitRun_no_dot (d : ZPart) (hd : isDigitRun d = true) : ∀ x ∈ d, x ≠ '.' := by
  intro x hx
  simp only [isDigitRun, Bool.and_eq_true, List.all_eq_true] at hd
  exact digit_ne_dot x (hd.2 x hx)

/-- In the serialization of a shaped token list every point is followed by a
digit. -/
theorem shape_dots (s : Nat) (ts : List ZPart) (h : Shape s ts) :
    (s = 0 → dotsFollowed (joinRest false ts) = true) ∧
    ((s = 1 ∨ s = 2) → dotsFollowed (joinRest true ts) = true) := by
  induction h with
  | nil s => exact ⟨fun _ => rfl, fun _ => rfl⟩
  | consD0 d ts hd _ ih =>
    refine ⟨fun _ => ?_, fun hcon => by omega⟩
    rw [joinRest_head,
      if_neg (by rw [isDigitRun_isDigitPart d hd]; exact fun hcon => nomatch hcon)]
    simp only [List.nil_append]
    rw [dotsFollowed_append d (digitRun_no_dot d hd), isDigitRun_isDigitPart d hd]
    exact ih.2 (Or.inl rfl)
  | consL1 l ts hl _ ih =>
    refine ⟨fun hcon => by omega, fun _ => ?_⟩
    rw [joinRest_head,
      if_neg (by rw [isLetterRun_not_isDigitPart l hl]; exact fun hcon => nomatch hcon)]
    simp only [List.nil_append]
    rw [dotsFollowed_append l (letterRun_no_dot l hl), isLetterRun_not_isDigitPart l hl]
    exact ih.1 rfl
  | consD1 d ts hd _ ih =>
    refine ⟨fun hcon => by omega, fun _ => ?_⟩
    rw [joinRest_head, if_pos (by rw [isDigitRun_isDigitPart d hd])]
    simp only [List.cons_append, List.nil_append]
    show ((if ('.' : Char) = '.' then isDigitPart (d ++ joinRest (isDigitPart d) ts)
      else true) && dotsFollowed (d ++ joinRest (isDigitPart d) ts)) = true
    rw [if_pos rfl,
      dotsFollowed_append d (digitRun_no_dot d hd), isDigitRun_isDigitPart d hd]
    have hhead : isDigitPart (d ++ joinRest true ts) = true := by
      cases d with
      | nil => simp [isDigitRun] at hd
      | cons y ys =>
        simp only [isDigitRun, List.all_cons, Bool.and_eq_true] at hd
        exact hd.2.1
    rw [hhead, Bool.true_and]
    exact ih.2 (Or.inr rfl)
  | consL2 l ts hl _ ih =>
    refine ⟨fun hcon => by omega, fun _ => ?_⟩
    rw [joinRest_head,
      if_neg (by rw [isLetterRun_not_isDigitPart l hl]; exact fun hcon => nomatch hcon)]
    simp only [List.nil_append]
    rw [dotsFollowed_append l (letterRun_no_dot l hl), isLetterRun_not_isDigitPart l hl]
    exact ih.1 rfl
  | consD2 d hd =>
    refine ⟨fun hcon => by omega, fun _ => ?_⟩
    rw [joinRest_head, if_pos (by rw [isDigitRun_isDigitPart d hd])]
    simp only [List.cons_append, List.nil_append]
    show ((if ('.' : Char) = '.' then isDigitPart (d ++ joinRest (isDigitPart d) [])
      else true) && dotsFollowed (d ++ joinRest (isDigitPart d) [])) = true
    rw [if_pos rfl]
    have hhead : isDigitPart (d ++ joinRest (isDigitPart d) []) = true := by
      cases d with
      | nil => simp [isDigitRun] at hd
      | cons y ys =>
        simp only [isDigitRun, List.all_cons, Bool.and_eq_true] at hd
        exact hd.2.1
    rw [hhead, Bool.true_and]
    rw [dotsFollowed_append d (digitRun_no_dot d hd)]
    rfl

/-- After a dot-discipline text, every point is mid-string followed by a
digit. -/
theorem dotsFollowed_mid (xs : List Char) :
    ∀ y rest, dotsFollowed (xs ++ '.' :: y :: rest) = true → isDigit09 y = true := by
  induction xs with
  | nil =>
    intro y rest h
    show _
    simp only [List.nil_append] at h
    have : ((if ('.' : Char) = '.' then isDigitPart (y :: rest) else true) &&
        dotsFollowed (y :: rest)) = true := h
    rw [if_pos rfl, Bool.and_eq_true] at this
    exact this.1
  | cons c cs ih =>
    intro y rest h
    have : ((if c = '.' then isDigitPart (cs ++ '.' :: y :: rest) else true) &&
        dotsFollowed (cs ++ '.' :: y :: rest)) = true := h
    rw [Bool.and_eq_true] at this
    exact ih y rest this.2

/-- A text satisfying the point discipline is left unchanged by the `.md`
stripper. -/
theorem stripMd_of_dots (l : List Char) (h : dotsFollowed l = true) : stripMd l = l := by
  unfold stripMd
  split
  · rename_i r heq
    exfalso
    have hl : l = r.reverse ++ ['.', 'm', 'd'] := by
      have h2 := congrArg List.reverse heq
      simpa using h2
    rw [hl] at h
    have : isDigit09 'm' = true := dotsFollowed_mid r.reverse 'm' ['d'] h
    exact absurd this (by decide)
  · rfl

/-- Characters of a serialized token list: points, letters and digits only. -/
theorem joinRest_chars (ts : List ZPart) :
    ∀ b, (∀ p ∈ ts, isTokenRun p = true) →
    ∀ x ∈ joinRest b ts, x = '.' ∨ isLowerAZ x = true ∨ isDigit09 x = true := by
  induction ts with
  | nil => intro b _ x hx; cases hx
  | cons p rest ih =>
    intro b hall x hx
    rw [joinRest_head] at hx
    rcases List.mem_append.mp hx with hx1 | hx2
    · rcases List.mem_append.mp hx1 with hx3 | hx4
      · by_cases hb : b = isDigitPart p
        · rw [if_pos hb] at hx3
          have : x = '.' := List.mem_singleton.mp hx3
          exact Or.inl this
        · rw [if_neg hb] at hx3
          cases hx3
      · have hp : isTokenRun p = true := hall p (by simp)
        rcases Bool.or_eq_true_iff.mp (by simpa [isTokenRun] using hp) with hl | hd
        · simp only [isLetterRun, Bool.and_eq_true, List.all_eq_true] at hl
          exact Or.inr (Or.inl (hl.2 x hx4))
        · simp only [isDigitRun, Bool.and_eq_true, List.all_eq_true] at hd
          exact Or.inr (Or.inr (hd.2 x hx4))
    · exact ih (isDigitPart p) (fun q hq => hall q (by simp [hq])) x hx2

/-- Inversion of a successful regex match. -/
theorem matchIdName_some (name id : List Char) (h : matchIdName name = some id) :
    id = name.takeWhile (fun c => c ≠ '-') ∧ idGrammar id = true := by
  unfold matchIdName at h
  by_cases hg : idGrammar (name.takeWhile (fun c => c ≠ '-')) = true
  · rw [if_pos hg] at h
    cases hdrop : name.dropWhile (fun c => c ≠ '-') with
    | nil =>
      rw [hdrop] at h
      injection h with h1
      subst h1
      exact ⟨rfl, hg⟩
    | cons y rest =>
      rw [hdrop] at h
      have h2 : (if rest.all notLineTerm = true
          then some (name.takeWhile (fun c => decide (c ≠ '-'))) else none) = some id := h
      by_cases hall : rest.all notLineTerm
      · rw [if_pos hall] at h2
        injection h2 with h1
        subst h1
        exact ⟨rfl, hg⟩
      · rw [if_neg hall] at h2
        cases h2
  · rw [if_neg hg] at h
    cases h

/-- The grammar forces a leading lowercase letter and an accepted remainder. -/
theorem idGrammar_elim (id : List Char) (h : idGrammar id = true) :
    ∃ c cs, id = c :: cs ∧ isLowerAZ c = true ∧ matchGroups cs = true := by
  cases id with
  | nil => cases h
  | cons c cs =>
    simp only [idGrammar, Bool.and_eq_true] at h
    exact ⟨c, cs, rfl, h.1, h.2⟩

/-- On a dash-free grammar-valid text, the regex matches the whole text. -/
theorem matchIdName_of_grammar (idl : List Char) (hg : idGrammar idl = true)
    (hnd : ∀ x ∈ idl, x ≠ '-') :
    matchIdName idl = some idl := by
  unfold matchIdName
  have ht := takeWhile_all_eq (fun ch => decide (ch ≠ '-')) idl
    (fun x hx => by simpa using hnd x hx)
  rw [ht.1, ht.2, if_pos hg]

/-- An accepted remainder never starts with a letter (a letter directly after
the initial letter, or after a group's letters, is not in the grammar). -/
theorem matchGroups_head_not_letter (cs : List Char) (h : matchGroups cs = true) :
    ∀ x, cs.head? = some x → isLowerAZ x = false := by
  intro x hx
  cases cs with
  | nil => cases hx
  | cons y ys =>
    simp only [List.head?_cons, Option.some.injEq] at hx
    have hy : isLowerAZ y = false := by
      rw [matchGroups_cons] at h
      by_cases hdot : y = '.'
      · subst hdot; decide
      · rw [if_neg hdot] at h
        by_cases hdig : isDigit09 y
        · exact digit_not_lower y hdig
        · rw [if_neg hdig] at h; cases h
    rw [← hx]
    exact hy

/-- Inversion of `parseZettelId`: the record fields of a successful parse. -/
theorem parseZettelId_some (s : List Char) (z : ZettelId) (h : parseZettelId s = some z) :
    matchIdName (stripMd s) = some z.id ∧ z.parts = tokenizeParts z.id ∧
      z.level = z.parts.length - 1 := by
  unfold parseZettelId at h
  cases hmi : matchIdName (stripMd s) with
  | none => rw [hmi] at h; cases h
  | some id =>
    rw [hmi] at h
    injection h with h1
    subst h1
    exact ⟨rfl, rfl, rfl⟩

/-- The token list of a successful parse: a single leading letter followed by
a state-0 shaped tail. -/
theorem parse_shape (s : List Char) (z : ZettelId) (h : parseZettelId s = some z) :
    ∃ c ts, z.parts = [c] :: ts ∧ isLowerAZ c = true ∧ Shape 0 ts := by
  obtain ⟨hmi, hparts, _⟩ := parseZettelId_some s z h
  obtain ⟨_, hg⟩ := matchIdName_some _ _ hmi
  obtain ⟨c, cs, hid, hc, hm⟩ := idGrammar_elim z.id hg
  have hshape := matchGroups_shape cs.length cs le_rfl hm
  refine ⟨c, tokenizeParts cs, ?_, hc, hshape⟩
  rw [hparts, hid, tokenizeParts_cons_letter c cs hc]
  have htw : cs.takeWhile isLowerAZ = [] ∧ cs.dropWhile isLowerAZ = cs := by
    cases cs with
    | nil => exact ⟨rfl, rfl⟩
    | cons y ys =>
      have hy : isLowerAZ y = false := matchGroups_head_not_letter (y :: ys) hm y rfl
      exact ⟨List.takeWhile_cons_of_neg (by rw [hy]; exact fun hcon => nomatch hcon),
        List.dropWhile_cons_of_neg (by rw [hy]; exact fun hcon => nomatch hcon)⟩
  rw [List.takeWhile_cons_of_pos hc, htw.1, List.dropWhile_cons_of_pos hc, htw.2]

/-- Claim C2, counterexample: the point-dropping revision does NOT round-trip
the textual form — `a.1` parses (parts `[a, 1]`), but `joinParts` rebuilds
`a1`, a different identifier text; and the earlier point-keeping revision does
not round-trip either — its `indexOf`-based point insertion appends a spurious
trailing point to `a1.2.2` (duplicated segment `2`), whose concatenation
`a1.2.2.` no longer parses. -/
theorem C2_counterexample :
    parseZettelId ['a', '.', '1'] = some ⟨['a', '.', '1'], [['a'], ['1']], 1⟩ ∧
    joinParts [['a'], ['1']] = ['a', '1'] ∧
    (parseZettelId (joinParts [['a'], ['1']])).map ZettelId.id = some ['a', '1'] ∧
    ['a', '1'] ≠ ['a', '.', '1'] ∧
    (parseZettelIdOld ['a', '1', '.', '2', '.', '2']).map ZettelIdOld.parts =
      some [['a'], ['1'], ['.'], ['2'], ['.'], ['2'], ['.']] ∧
    [['a'], ['1'], ['.'], ['2'], ['.'], ['2'], ['.']].flatten =
      ['a', '1', '.', '2', '.', '2', '.'] ∧
    parseZettelIdOld ['a', '1', '.', '2', '.', '2', '.'] = none := by
  refine ⟨by decide, by decide, by decide, by decide, by decide, by decide, by decide⟩

/-- Claim C2, amended: for every name accepted by the point-dropping
`parseZettelId`, re-parsing `joinParts parts` succeeds and reproduces exactly
the same `parts` and `level` (the corpus-visible data); only the textual `id`
can differ, when the original spelled a point between a letter and a digit
run (e.g. `a.1` → `a1`). -/
theorem C2_round_trip (s : List Char) (z : ZettelId) (h : parseZettelId s = some z) :
    parseZettelId (joinParts z.parts) = some ⟨joinParts z.parts, z.parts, z.level⟩ := by
  obtain ⟨c, ts, hparts, hc, hshape⟩ := parse_shape s z h
  obtain ⟨_, _, hlevel⟩ := parseZettelId_some s z h
  have hcd : isDigitPart [c] = false := by
    show isDigit09 c = false
    exact lower_not_digit c hc
  have hjoin : joinParts z.parts = c :: joinRest false ts := by
    rw [hparts]
    show [c] ++ joinRest (isDigitPart [c]) ts = c :: joinRest false ts
    rw [hcd]
    rfl
  have hruns : ∀ p ∈ ts, isTokenRun p = true := shape_runs 0 ts hshape
  -- the rebuilt text contains no dash: the regex captures all of it
  have hnd : ∀ x ∈ joinParts z.parts, x ≠ '-' := by
    intro x hx
    rw [hjoin] at hx
    rcases List.mem_cons.mp hx with h1 | h1
    · subst h1
      intro hcon
      subst hcon
      exact absurd hc (by decide)
    · rcases joinRest_chars ts false hruns x h1 with h2 | h2 | h2
      · subst h2; decide
      · intro hcon; subst hcon; exact absurd h2 (by decide)
      · intro hcon; subst hcon; exact absurd h2 (by decide)
  -- the rebuilt text never ends in `.md`: points are followed by digits
  have hdots : dotsFollowed (joinParts z.parts) = true := by
    rw [hjoin]
    show ((if c = '.' then isDigitPart (joinRest false ts) else true) &&
      dotsFollowed (joinRest false ts)) = true
    rw [if_neg (lower_ne_dot c hc), Bool.true_and]
    exact (shape_dots 0 ts hshape).1 rfl
  have hgram : idGrammar (joinParts z.parts) = true := by
    rw [hjoin]
    simp only [idGrammar, Bool.and_eq_true]
    exact ⟨hc, (shape_accept 0 ts hshape).1 rfl⟩
  have htok : tokenizeParts (joinParts z.parts) = z.parts := by
    rw [hjoin, hparts]
    have hX : ∀ x, (joinRest false ts).head? = some x → isLowerAZ x = false :=
      joinRest_shape0_not_letter ts hshape
    have := tokenizeParts_letter_run [c] (joinRest false ts)
      (by simp [isLetterRun, hc]) hX
    simp only [List.cons_append, List.nil_append] at this
    rw [this, tokenizeParts_joinRest ts false hruns]
  unfold parseZettelId
  rw [stripMd_of_dots _ hdots, matchIdName_of_grammar _ hgram hnd]
  simp only [Option.some.injEq]
  rw [htok]
  have : z.parts.length - 1 = z.level := hlevel.symm
  rw [this]

/-- Witness for C2: round-tripping the parse of `a1b2.34-note`. -/
theorem C2_round_trip_witness :
    parseZettelId (joinParts [['a'], ['1'], ['b'], ['2'], ['3', '4']]) =
      some ⟨joinParts [['a'], ['1'], ['b'], ['2'], ['3', '4']],
        [['a'], ['1'], ['b'], ['2'], ['3', '4']], 4⟩ := by
  have h : parseZettelId ['a', '1', 'b', '2', '.', '3', '4', '-', 'n'] =
      some ⟨['a', '1', 'b', '2', '.', '3', '4'],
        [['a'], ['1'], ['b'], ['2'], ['3', '4']], 4⟩ := by decide
  exact C2_round_trip ['a', '1', 'b', '2', '.', '3', '4', '-', 'n'] _ h

/-! ## The flat-corpus node layer (`view.ts`, second revision) -/

/-- `ZettelNode` of the second revision of `view.ts`: the id text, its token
parts, and the display level (`-1` for the virtual top-level parent that
`outdentNote` constructs; the wrapped `TFile` plays no role in the id
logic and is omitted). -/
structure ZettelNode where
  id : List Char
  parts : List ZPart
  level : Int
deriving Repr, DecidableEq

/-- JS `Array.prototype.findIndex` combined with taking the suffix after the
found index: `splitAfterFirst p l = some post` exactly when `findIndex`
returns some `i` and `post = l.slice(i+1)`. -/
def splitAfterFirst (p : ZettelNode → Bool) : List ZettelNode → Option (List ZettelNode)
  | [] => none
  | a :: l => if p a then some l else splitAfterFirst p l

/-- The scanning loop of `utils.getMaxChild`: walk the nodes after the
current one; stop at the first node whose level leaves the subtree
(`candidate.level <= currentLevel`), skip candidates off the target level,
and remember the last candidate whose parent id equals the current id. -/
def maxChildScan (currentLevel targetLevel : Int) (currentId : List Char) :
    List ZettelNode → Option ZettelNode → Option ZettelNode
  | [], acc => acc
  | n :: rest, acc =>
    if n.level ≤ currentLevel then acc
    else if n.level ≠ targetLevel then maxChildScan currentLevel targetLevel currentId rest acc
    else if joinParts n.parts.dropLast = currentId then
      maxChildScan currentLevel targetLevel currentId rest (some n)
    else maxChildScan currentLevel targetLevel currentId rest acc

/-- `utils.getMaxChild`: locate the current node by its joined id, then scan
the following nodes for the last direct child before leaving the subtree. -/
def getMaxChild (sortedZettelNodes : List ZettelNode) (currentNode : ZettelNode) :
    Option ZettelNode :=
  match splitAfterFirst
      (fun node => joinParts node.parts = joinParts currentNode.parts) sortedZettelNodes with
  | none => none
  | some post =>
    maxChildScan currentNode.level (currentNode.level + 1)
      (joinParts currentNode.parts) post none

/-- `view.generateChildId` (second revision).  A parent with empty `parts` is
the virtual top-level node: the next id extends the LAST top-level node (the
corpus is sorted).  Otherwise the maximal direct child's trailing token is
incremented (digits by `parseInt + 1`, letters by `getNextLetterSequence`),
or the conventional first child token (`a` after digits, `1` after letters)
is appended.  The `!nextLetters` checks of the source are kept, although
`getNextLetterSequence` never returns null or an empty string; the source
would throw on a node with an empty `parts` array, modelled as `none`. -/
def generateChildId (allZettels : List ZettelNode) (parent : ZettelNode) :
    Option (List Char) :=
  if parent.parts = [] then
    match (allZettels.filter (fun z => z.level = 0)).getLast? with
    | some maxTopLevel =>
      match maxTopLevel.parts.head? with
      | none => none
      | some lastPart =>
        if isDigitPart lastPart then some (natToDec (parseIntNat lastPart + 1))
        else
          if getNextLetterSequence lastPart = [] then none
          else some (getNextLetterSequence lastPart)
    | none => some ['a']
  else
    match getMaxChild allZettels parent with
    | some maxChild =>
      match maxChild.parts.getLast? with
      | none => none
      | some lastPart =>
        if isDigitPart lastPart then
          some (joinParts (parent.parts ++ [natToDec (parseIntNat lastPart + 1)]))
        else
          if getNextLetterSequence lastPart = [] then none
          else some (joinParts (parent.parts ++ [getNextLetterSequence lastPart]))
    | none =>
      match parent.parts.getLast? with
      | none => none
      | some lastPart =>
        some (joinParts (parent.parts ++ [if isDigitPart lastPart then ['a'] else ['1']]))

/-- Well-formedness of a corpus node: token-run parts, non-empty, and the
level derived from the parts as the parser computes it. -/
def nodeWFB (n : ZettelNode) : Bool :=
  n.parts.all isTokenRun && decide (n.parts ≠ []) &&
    decide (n.level = (n.parts.length : Int) - 1)

/-- No two adjacent letter-run parts (parser output satisfies this: letters
merge into one run unless separated by a point, and points precede digits). -/
def noLLB : List ZPart → Bool
  | p :: q :: rest => (isDigitPart p || isDigitPart q) && noLLB (q :: rest)
  | _ => true

/-- Adjacent strict ascending order under `compareZettelIds`. -/
def strictSortedB : List ZettelNode → Bool
  | a :: b :: rest => decide (compareZettelIds a.parts b.parts < 0) && strictSortedB (b :: rest)
  | _ => true

/-- C10: on a corpus that is sorted by `compareZettelIds` (adjacent compares
are ≤ 0), `getMaxChild` can return `none` although a direct child is present:
`a01` compares equal to `a1`, sits between `a1` and its child `a1.5` in a
valid sort order, and its level breaks the scan before the child is seen. -/
theorem C10_counterexample :
    compareZettelIds [['a'], ['1']] [['a'], ['0', '1']] ≤ 0 ∧
    compareZettelIds [['a'], ['0', '1']] [['a'], ['1'], ['5']] ≤ 0 ∧
    [['a'], ['1'], ['5']] = [['a'], ['1']] ++ [[ '5' ]] ∧
    getMaxChild
      [⟨['a', '1'], [['a'], ['1']], 1⟩,
       ⟨['a', '0', '1'], [['a'], ['0', '1']], 1⟩,
       ⟨['a', '1', '.', '5'], [['a'], ['1'], ['5']], 2⟩]
      ⟨['a', '1'], [['a'], ['1']], 1⟩ = none := by
  refine ⟨by decide, by decide, rfl, ?_⟩
  decide

theorem partKeyCmp_refl (p : ZPart) : partKeyCmp p p = .eq := by
  unfold partKeyCmp
  by_cases hd : isDigitPart p
  · simp [hd, natCmp_eq_iff]
  · simp [hd, lexCmp_eq_iff]

/-- A part list sorts strictly before any proper extension of itself. -/
theorem zettelCmp_append_right (n : List ZPart) (e : List ZPart) (he : e ≠ []) :
    zettelCmp n (n ++ e) = .lt := by
  induction n with
  | nil =>
    cases e with
    | nil => exact absurd rfl he
    | cons x xs => rfl
  | cons p ps ih =>
    show zettelCmp (p :: ps) (p :: (ps ++ e)) = .lt
    unfold zettelCmp
    rw [partKeyCmp_refl]
    exact ih

/-- A common prefix of parts cancels in the comparison. -/
theorem zettelCmp_append_strip (n : List ZPart) (a b : List ZPart) :
    zettelCmp (n ++ a) (n ++ b) = zettelCmp a b := by
  induction n with
  | nil => rfl
  | cons p ps ih =>
    show zettelCmp (p :: (ps ++ a)) (p :: (ps ++ b)) = zettelCmp a b
    rw [← ih]
    show (match partKeyCmp p p with
          | Ordering.eq => zettelCmp (ps ++ a) (ps ++ b)
          | o => o) = zettelCmp (ps ++ a) (ps ++ b)
    rw [partKeyCmp_refl]

/-- If `n` sorts before `x` and `x` is no longer than `n`, then every
extension of `n` still sorts before `x`: the deciding difference occurs
within the first `x.length ≤ n.length` positions. -/
theorem zettelCmp_ext_lt (n : List ZPart) :
    ∀ (x e : List ZPart), zettelCmp n x = .lt → x.length ≤ n.length →
      zettelCmp (n ++ e) x = .lt := by
  induction n with
  | nil =>
    intro x e h hlen
    have hx : x = [] := List.length_eq_zero.mp (Nat.le_zero.mp hlen)
    subst hx
    cases h
  | cons p ps ih =>
    intro x e h hlen
    cases x with
    | nil => cases h
    | cons q qs =>
      show zettelCmp (p :: (ps ++ e)) (q :: qs) = .lt
      unfold zettelCmp at h ⊢
      cases hk : partKeyCmp p q with
      | lt => rfl
      | gt => rw [hk] at h; cases h
      | eq =>
        rw [hk] at h
        exact ih qs e h (by simpa using hlen)

/-- Serialization followed by tokenization is the identity on non-empty
token-run lists as well (the head needs no separating point). -/
theorem tokenizeParts_joinParts (p : List ZPart) (hp : ∀ x ∈ p, isTokenRun x = true) :
    tokenizeParts (joinParts p) = p := by
  cases p with
  | nil => rfl
  | cons x rest =>
    have hjoin : joinParts (x :: rest) = joinRest (!isDigitPart x) (x :: rest) := by
      rw [joinRest_head, if_neg (by cases isDigitPart x <;> simp)]
      rfl
    rw [hjoin]
    exact tokenizeParts_joinRest (x :: rest) (!isDigitPart x) hp

/-- `joinParts` is injective on token-run lists. -/
theorem joinParts_inj (p q : List ZPart) (hp : ∀ x ∈ p, isTokenRun x = true)
    (hq : ∀ x ∈ q, isTokenRun x = true) (h : joinParts p = joinParts q) : p = q := by
  have h1 := tokenizeParts_joinParts p hp
  have h2 := tokenizeParts_joinParts q hq
  rw [← h1, ← h2, h]

theorem zettelCmp_refl (a : List ZPart) : zettelCmp a a = .eq := by
  have h := zettelCmp_append_strip a [] []
  simpa using h

theorem compareZettelIds_self (a : List ZPart) : compareZettelIds a a = 0 :=
  (compareZettelIds_eq_zero_iff a a).mpr (zettelCmp_refl a)

theorem compareLt_trans (a b c : List ZPart) (hab : compareZettelIds a b < 0)
    (hbc : compareZettelIds b c < 0) : compareZettelIds a c < 0 :=
  (compareZettelIds_lt_iff a c).mpr
    (zettelCmp_lt_trans a b c ((compareZettelIds_lt_iff a b).mp hab)
      ((compareZettelIds_lt_iff b c).mp hbc))

theorem strictSortedB_pairwise (l : List ZettelNode) (h : strictSortedB l = true) :
    l.Pairwise (fun a b => compareZettelIds a.parts b.parts < 0) := by
  induction l with
  | nil => exact List.Pairwise.nil
  | cons a rest ih =>
    cases rest with
    | nil => simp
    | cons b rest2 =>
      unfold strictSortedB at h
      simp only [Bool.and_eq_true, decide_eq_true_eq] at h
      obtain ⟨hab, hrest⟩ := h
      have hp := ih hrest
      refine List.Pairwise.cons ?_ hp
      intro y hy
      rcases List.mem_cons.mp hy with hyb | hy2
      · subst hyb; exact hab
      · exact compareLt_trans a.parts b.parts y.parts hab
          (List.rel_of_pairwise_cons hp hy2)

theorem nodeWFB_iff (n : ZettelNode) :
    nodeWFB n = true ↔ (∀ p ∈ n.parts, isTokenRun p = true) ∧ n.parts ≠ [] ∧
      n.level = (n.parts.length : Int) - 1 := by
  unfold nodeWFB
  simp [List.all_eq_true, and_assoc]

theorem splitAfterFirst_eq_none (p : ZettelNode → Bool) :
    ∀ l, splitAfterFirst p l = none → ∀ a ∈ l, p a = false := by
  intro l
  induction l with
  | nil => intro _ a ha; cases ha
  | cons x xs ih =>
    intro h a ha
    unfold splitAfterFirst at h
    by_cases hx : p x
    · rw [if_pos hx] at h; cases h
    · rw [if_neg hx] at h
      rcases List.mem_cons.mp ha with rfl | ha2
      · exact Bool.eq_false_iff.mpr hx
      · exact ih h a ha2

theorem splitAfterFirst_eq_some (p : ZettelNode → Bool) :
    ∀ l post, splitAfterFirst p l = some post →
      ∃ pre x, l = pre ++ x :: post ∧ p x = true ∧ ∀ a ∈ pre, p a = false := by
  intro l
  induction l with
  | nil => intro post h; cases h
  | cons x xs ih =>
    intro post h
    unfold splitAfterFirst at h
    by_cases hx : p x
    · rw [if_pos hx] at h
      injection h with h2
      exact ⟨[], x, by rw [h2]; rfl, hx, by simp⟩
    · rw [if_neg hx] at h
      obtain ⟨pre, y, hdec, hy, hpre⟩ := ih post h
      refine ⟨x :: pre, y, by rw [hdec]; rfl, hy, ?_⟩
      intro a ha
      rcases List.mem_cons.mp ha with rfl | ha2
      · exact Bool.eq_false_iff.mpr hx
      · exact hpre a ha2

theorem maxChildScan_cons (cl tl : Int) (cid : List Char) (n : ZettelNode)
    (rest : List ZettelNode) (acc : Option ZettelNode) :
    maxChildScan cl tl cid (n :: rest) acc =
      if n.level ≤ cl then acc
      else if n.level ≠ tl then maxChildScan cl tl cid rest acc
      else if joinParts n.parts.dropLast = cid then maxChildScan cl tl cid rest (some n)
      else maxChildScan cl tl cid rest acc := rfl

/-- The scan after the current node, on a strictly sorted well-formed tail:
every direct child it passes is dominated by the returned node, and the
returned node is the accumulator or a direct child from the tail. -/
theorem maxChildScan_spec (cur : ZettelNode) (hcur : nodeWFB cur = true) :
    ∀ (rest : List ZettelNode) (acc : Option ZettelNode),
      (∀ n ∈ rest, nodeWFB n = true) →
      (∀ y ∈ rest, compareZettelIds cur.parts y.parts < 0) →
      rest.Pairwise (fun a b => compareZettelIds a.parts b.parts < 0) →
      (∀ y ∈ rest, ∀ t, y.parts = cur.parts ++ [t] →
        ∃ m, maxChildScan cur.level (cur.level + 1) (joinParts cur.parts) rest acc = some m ∧
          compareZettelIds y.parts m.parts ≤ 0) ∧
      (maxChildScan cur.level (cur.level + 1) (joinParts cur.parts) rest acc = acc ∨
        ∃ m, maxChildScan cur.level (cur.level + 1) (joinParts cur.parts) rest acc = some m ∧
          m ∈ rest ∧ ∃ t, m.parts = cur.parts ++ [t]) := by
  obtain ⟨hcurtok, hcurne, hcurlvl⟩ := (nodeWFB_iff cur).mp hcur
  intro rest
  induction rest with
  | nil =>
    intro acc _ _ _
    exact ⟨fun y hy => absurd hy (List.not_mem_nil y), Or.inl rfl⟩
  | cons y rest ih =>
    intro acc hwf hgt hpw
    obtain ⟨hytok, hyne, hylvl⟩ := (nodeWFB_iff y).mp (hwf y (List.mem_cons_self y rest))
    have hwf2 : ∀ n ∈ rest, nodeWFB n = true := fun n hn => hwf n (List.mem_cons_of_mem y hn)
    have hgt2 : ∀ z ∈ rest, compareZettelIds cur.parts z.parts < 0 :=
      fun z hz => hgt z (List.mem_cons_of_mem y hz)
    have hpw2 := List.pairwise_cons.mp hpw
    have hcpos : 0 < cur.parts.length := List.length_pos.mpr hcurne
    by_cases hbrk : y.level ≤ cur.level
    · -- break: the scan returns the accumulator; no direct child can follow
      rw [maxChildScan_cons, if_pos hbrk]
      have hlen : y.parts.length ≤ cur.parts.length := by omega
      refine ⟨?_, Or.inl rfl⟩
      intro z hz t hzt
      exfalso
      rcases List.mem_cons.mp hz with rfl | hz2
      · have : z.parts.length = cur.parts.length + 1 := by rw [hzt]; simp
        omega
      · have hlty : zettelCmp z.parts y.parts = .lt := by
          rw [hzt]
          exact zettelCmp_ext_lt cur.parts y.parts [t]
            ((compareZettelIds_lt_iff _ _).mp (hgt y (List.mem_cons_self y rest))) hlen
        have hylt : zettelCmp y.parts z.parts = .lt :=
          (compareZettelIds_lt_iff _ _).mp (hpw2.1 z hz2)
        have hcontra := zettelCmp_lt_trans y.parts z.parts y.parts hylt hlty
        rw [zettelCmp_refl] at hcontra
        cases hcontra
    · rw [maxChildScan_cons, if_neg hbrk]
      by_cases htl : y.level = cur.level + 1
      · rw [if_neg (not_not_intro htl)]
        by_cases hpid : joinParts y.parts.dropLast = joinParts cur.parts
        · -- y qualifies as a direct child; scan continues with y remembered
          rw [if_pos hpid]
          have hydl : y.parts.dropLast = cur.parts := by
            refine joinParts_inj _ _ ?_ hcurtok hpid
            intro x hx
            exact hytok x (List.dropLast_subset y.parts hx)
          have hdcy : ∃ t, y.parts = cur.parts ++ [t] := by
            refine ⟨y.parts.getLast hyne, ?_⟩
            rw [← hydl]
            exact (List.dropLast_append_getLast hyne).symm
          have IH := ih (some y) hwf2 hgt2 hpw2.2
          refine ⟨?_, ?_⟩
          · intro z hz t hzt
            rcases List.mem_cons.mp hz with rfl | hz2
            · rcases IH.2 with hacc | ⟨m, hm, hmem, _⟩
              · exact ⟨z, hacc, le_of_eq (compareZettelIds_self z.parts)⟩
              · exact ⟨m, hm, le_of_lt (hpw2.1 m hmem)⟩
            · exact IH.1 z hz2 t hzt
          · rcases IH.2 with hacc | ⟨m, hm, hmem, hdc⟩
            · exact Or.inr ⟨y, hacc, List.mem_cons_self y rest, hdcy⟩
            · exact Or.inr ⟨m, hm, List.mem_cons_of_mem y hmem, hdc⟩
        · -- right level but a different parent id
          rw [if_neg hpid]
          have IH := ih acc hwf2 hgt2 hpw2.2
          refine ⟨?_, ?_⟩
          · intro z hz t hzt
            rcases List.mem_cons.mp hz with rfl | hz2
            · exfalso
              apply hpid
              rw [hzt, List.dropLast_concat]
            · exact IH.1 z hz2 t hzt
          · rcases IH.2 with hacc | ⟨m, hm, hmem, hdc⟩
            · exact Or.inl hacc
            · exact Or.inr ⟨m, hm, List.mem_cons_of_mem y hmem, hdc⟩
      · -- off the target level: skip
        rw [if_pos htl]
        have IH := ih acc hwf2 hgt2 hpw2.2
        refine ⟨?_, ?_⟩
        · intro z hz t hzt
          rcases List.mem_cons.mp hz with rfl | hz2
          · exfalso
            apply htl
            have : z.parts.length = cur.parts.length + 1 := by rw [hzt]; simp
            omega
          · exact IH.1 z hz2 t hzt
        · rcases IH.2 with hacc | ⟨m, hm, hmem, hdc⟩
          · exact Or.inl hacc
          · exact Or.inr ⟨m, hm, List.mem_cons_of_mem y hmem, hdc⟩

/-- `getMaxChild` on a strictly sorted, well-formed corpus: `none` means no
direct child exists, and a returned node is a compare-maximal direct child. -/
theorem getMaxChild_spec (l : List ZettelNode) (cur : ZettelNode)
    (hs : strictSortedB l = true) (hwf : ∀ n ∈ l, nodeWFB n = true) (hmem : cur ∈ l) :
    (getMaxChild l cur = none → ∀ y ∈ l, ∀ t, y.parts ≠ cur.parts ++ [t]) ∧
    ∀ m, getMaxChild l cur = some m →
      m ∈ l ∧ (∃ t, m.parts = cur.parts ++ [t]) ∧
      ∀ y ∈ l, ∀ t, y.parts = cur.parts ++ [t] → compareZettelIds y.parts m.parts ≤ 0 := by
  have hpw := strictSortedB_pairwise l hs
  obtain ⟨hctok, hcne, _⟩ := (nodeWFB_iff cur).mp (hwf cur hmem)
  cases hsplit : splitAfterFirst
      (fun node => decide (joinParts node.parts = joinParts cur.parts)) l with
  | none =>
    exfalso
    have := splitAfterFirst_eq_none _ l hsplit cur hmem
    simp at this
  | some post =>
    have hgm : getMaxChild l cur =
        maxChildScan cur.level (cur.level + 1) (joinParts cur.parts) post none := by
      unfold getMaxChild
      rw [hsplit]
    rw [hgm]
    obtain ⟨pre, x, hdec, hx, _⟩ := splitAfterFirst_eq_some _ l post hsplit
    have hxmem : x ∈ l := by rw [hdec]; exact List.mem_append_right pre (List.mem_cons_self x post)
    obtain ⟨hxtok, _, _⟩ := (nodeWFB_iff x).mp (hwf x hxmem)
    have hxcur : x.parts = cur.parts := by
      refine joinParts_inj _ _ hxtok hctok ?_
      simpa using hx
    rw [hdec] at hpw
    obtain ⟨hprepw, hxpostpw, hcross⟩ := List.pairwise_append.mp hpw
    obtain ⟨hxpost, hpostpw⟩ := List.pairwise_cons.mp hxpostpw
    have hgtpost : ∀ y ∈ post, compareZettelIds cur.parts y.parts < 0 := by
      intro y hy
      have := hxpost y hy
      rwa [hxcur] at this
    have hwfpost : ∀ n ∈ post, nodeWFB n = true := by
      intro n hn
      refine hwf n ?_
      rw [hdec]
      exact List.mem_append_right pre (List.mem_cons_of_mem x hn)
    have hscan := maxChildScan_spec cur (hwf cur hmem) post none hwfpost hgtpost hpostpw
    have hnofront : ∀ y, y ∈ pre ∨ y = x → ∀ t, y.parts ≠ cur.parts ++ [t] := by
      rintro y hy t hyt
      rcases hy with hy | rfl
      · have h1 : compareZettelIds y.parts cur.parts < 0 := by
          have := hcross y hy x (List.mem_cons_self x post)
          rwa [hxcur] at this
        have h2 : compareZettelIds cur.parts y.parts < 0 := by
          rw [compareZettelIds_lt_iff, hyt]
          exact zettelCmp_append_right cur.parts [t] (by simp)
        have := compareLt_trans _ _ _ h1 h2
        rw [compareZettelIds_self] at this
        exact absurd this (by decide)
      · rw [hxcur] at hyt
        have := congrArg List.length hyt
        simp at this
    refine ⟨?_, ?_⟩
    · intro hnone y hy t hyt
      rw [hdec] at hy
      rcases List.mem_append.mp hy with h1 | h2
      · exact hnofront y (Or.inl h1) t hyt
      · rcases List.mem_cons.mp h2 with rfl | h3
        · exact hnofront y (Or.inr rfl) t hyt
        · obtain ⟨m, hm, _⟩ := hscan.1 y h3 t hyt
          rw [hnone] at hm
          cases hm
    · intro m hm
      rcases hscan.2 with hacc | ⟨m2, hm2, hm2mem, hm2dc⟩
      · rw [hm] at hacc; cases hacc
      · rw [hm] at hm2
        injection hm2 with hm2
        subst hm2
        have hminl : m ∈ l := by
          rw [hdec]
          exact List.mem_append_right pre (List.mem_cons_of_mem x hm2mem)
        refine ⟨hminl, hm2dc, ?_⟩
        intro y hy t hyt
        rw [hdec] at hy
        rcases List.mem_append.mp hy with h1 | h2
        · exact absurd hyt (hnofront y (Or.inl h1) t)
        · rcases List.mem_cons.mp h2 with rfl | h3
          · exact absurd hyt (hnofront y (Or.inr rfl) t)
          · obtain ⟨m3, hm3, hle⟩ := hscan.1 y h3 t hyt
            rw [hm] at hm3
            injection hm3 with hm3
            rw [hm3]
            exact hle

/-- C10: the claimed behaviour of `getMaxChild` holds once the corpus is
STRICTLY sorted (no compare-equal twins) and well-formed: `none` exactly when
no element's parts extend the node's parts by one token, and otherwise the
result is a direct child maximal under `compareZettelIds`.  On merely sorted
corpora the claim fails (`C10_counterexample`). -/
theorem C10_getMaxChild (l : List ZettelNode) (cur : ZettelNode)
    (hs : strictSortedB l = true) (hwf : ∀ n ∈ l, nodeWFB n = true) (hmem : cur ∈ l) :
    (getMaxChild l cur = none ↔ ∀ y ∈ l, ∀ t, y.parts ≠ cur.parts ++ [t]) ∧
    ∀ m, getMaxChild l cur = some m →
      m ∈ l ∧ (∃ t, m.parts = cur.parts ++ [t]) ∧
      ∀ y ∈ l, ∀ t, y.parts = cur.parts ++ [t] → compareZettelIds y.parts m.parts ≤ 0 := by
  have h := getMaxChild_spec l cur hs hwf hmem
  refine ⟨⟨h.1, ?_⟩, h.2⟩
  intro hnone
  cases hgm : getMaxChild l cur with
  | none => rfl
  | some m =>
    obtain ⟨hmem2, ⟨t, ht⟩, _⟩ := h.2 m hgm
    exact absurd ht (hnone m hmem2 t)

/-- The note `a` as a corpus node. -/
def nodeA : ZettelNode := ⟨['a'], [['a']], 0⟩

/-- The note `a1` as a corpus node. -/
def nodeA1 : ZettelNode := ⟨['a', '1'], [['a'], ['1']], 1⟩

theorem C10_getMaxChild_witness :
    (strictSortedB [nodeA, nodeA1] = true ∧ (∀ n ∈ [nodeA, nodeA1], nodeWFB n = true) ∧
      nodeA ∈ [nodeA, nodeA1]) ∧
    ((getMaxChild [nodeA, nodeA1] nodeA = none ↔
        ∀ y ∈ [nodeA, nodeA1], ∀ t, y.parts ≠ nodeA.parts ++ [t]) ∧
      ∀ m, getMaxChild [nodeA, nodeA1] nodeA = some m →
        m ∈ [nodeA, nodeA1] ∧ (∃ t, m.parts = nodeA.parts ++ [t]) ∧
        ∀ y ∈ [nodeA, nodeA1], ∀ t, y.parts = nodeA.parts ++ [t] →
          compareZettelIds y.parts m.parts ≤ 0) :=
  ⟨⟨by decide, by decide, by decide⟩,
    C10_getMaxChild [nodeA, nodeA1] nodeA (by decide) (by decide) (by decide)⟩

theorem incRevLetters_ne_nil (l : List Char) :
    ∀ r, incRevLetters l = some r → r ≠ [] := by
  induction l with
  | nil => intro r h; cases h
  | cons c rest ih =>
    intro r h
    unfold incRevLetters at h
    by_cases hc : c < 'z'
    · rw [if_pos hc] at h
      injection h with h
      rw [← h]
      simp
    · rw [if_neg hc] at h
      cases hrec : incRevLetters rest with
      | none => rw [hrec] at h; cases h
      | some r2 =>
        rw [hrec] at h
        simp only [Option.map, Option.some.injEq] at h
        rw [← h]
        simp

theorem getNextLetterSequence_ne_nil (p : List Char) : getNextLetterSequence p ≠ [] := by
  unfold getNextLetterSequence
  cases hinc : incRevLetters p.reverse with
  | none => simp
  | some r =>
    have := incRevLetters_ne_nil p.reverse r hinc
    simp [List.reverse_eq_nil_iff, this]

theorem mem_of_getLast?_eq {α : Type} (l : List α) (x : α)
    (h : l.getLast? = some x) : x ∈ l := by
  obtain ⟨hne, hx⟩ := List.mem_getLast?_eq_getLast (Option.mem_def.mpr h)
  rw [hx]
  exact List.getLast_mem hne

/-- C8: the virtual top-level parent that `outdentNote` builds has an EMPTY
id — which `parseZettelId` rejects — yet child generation succeeds on it; and
there is no length bound on letter increment: a `z` child rolls over to `aa`
and generation still succeeds. -/
theorem C8_counterexample :
    parseZettelId [] = none ∧
    generateChildId [] ⟨[], [], -1⟩ = some ['a'] ∧
    generateChildId [⟨['a', '1'], [['a'], ['1']], 1⟩,
        ⟨['a', '1', 'z'], [['a'], ['1'], ['z']], 2⟩]
      ⟨['a', '1'], [['a'], ['1']], 1⟩ = some ['a', '1', 'a', 'a'] := by
  refine ⟨?_, rfl, ?_⟩ <;> decide

/-- C8: on a strictly sorted well-formed corpus, child generation NEVER
fails — neither for a corpus node nor for the virtual empty parent.  The
`!nextLetters` guard is dead (`getNextLetterSequence` is total and
non-empty), there is no maximum-length bound, and an unparsable (empty)
parent id does not stop generation. -/
theorem C8_generation_total (l : List ZettelNode) (parent : ZettelNode)
    (hs : strictSortedB l = true) (hwf : ∀ n ∈ l, nodeWFB n = true)
    (hmem : parent ∈ l ∨ parent.parts = []) :
    ∃ s, generateChildId l parent = some s := by
  unfold generateChildId
  by_cases hpe : parent.parts = []
  · rw [if_pos hpe]
    split
    · rename_i maxTop hlast
      have hmemf : maxTop ∈ l :=
        List.filter_subset' l (mem_of_getLast?_eq _ maxTop hlast)
      obtain ⟨_, hne, _⟩ := (nodeWFB_iff maxTop).mp (hwf maxTop hmemf)
      split
      · rename_i hhead
        exfalso
        rw [List.head?_eq_none_iff] at hhead
        exact hne hhead
      · rename_i lastPart _
        by_cases hd : isDigitPart lastPart
        · rw [if_pos hd]
          exact ⟨_, rfl⟩
        · rw [if_neg hd, if_neg (getNextLetterSequence_ne_nil lastPart)]
          exact ⟨_, rfl⟩
    · exact ⟨['a'], rfl⟩
  · rw [if_neg hpe]
    have hmem2 : parent ∈ l := by
      rcases hmem with h | h
      · exact h
      · exact absurd h hpe
    split
    · rename_i maxChild hmc
      obtain ⟨hcmem, _, _⟩ := (getMaxChild_spec l parent hs hwf hmem2).2 maxChild hmc
      obtain ⟨_, hcne, _⟩ := (nodeWFB_iff maxChild).mp (hwf maxChild hcmem)
      split
      · rename_i hlast
        exfalso
        rw [List.getLast?_eq_none_iff] at hlast
        exact hcne hlast
      · rename_i lastPart _
        by_cases hd : isDigitPart lastPart
        · rw [if_pos hd]
          exact ⟨_, rfl⟩
        · rw [if_neg hd, if_neg (getNextLetterSequence_ne_nil lastPart)]
          exact ⟨_, rfl⟩
    · split
      · rename_i hlast
        exfalso
        rw [List.getLast?_eq_none_iff] at hlast
        exact hpe hlast
      · exact ⟨_, rfl⟩

theorem C8_generation_total_witness :
    (strictSortedB [nodeA, nodeA1] = true ∧ (∀ n ∈ [nodeA, nodeA1], nodeWFB n = true) ∧
      (nodeA1 ∈ [nodeA, nodeA1] ∨ nodeA1.parts = [])) ∧
    ∃ s, generateChildId [nodeA, nodeA1] nodeA1 = some s :=
  ⟨⟨by decide, by decide, Or.inl (by decide)⟩,
    C8_generation_total [nodeA, nodeA1] nodeA1 (by decide) (by decide)
      (Or.inl (by decide))⟩

theorem digitCh_spec (m : Nat) (h : m < 10) :
    isDigit09 (digitCh m) = true ∧ (digitCh m).toNat - 48 = m := by
  interval_cases m <;> exact ⟨rfl, rfl⟩

theorem natToDecAux_append : ∀ (fuel n : Nat) (acc : List Char),
    natToDecAux fuel n acc = natToDecAux fuel n [] ++ acc := by
  intro fuel
  induction fuel with
  | zero => intro n acc; rfl
  | succ f ih =>
    intro n acc
    show (if n = 0 then acc else natToDecAux f (n / 10) (digitCh (n % 10) :: acc)) =
      (if n = 0 then ([] : List Char)
        else natToDecAux f (n / 10) (digitCh (n % 10) :: [])) ++ acc
    by_cases hn : n = 0
    · rw [if_pos hn, if_pos hn]; rfl
    · rw [if_neg hn, if_neg hn, ih (n / 10) (digitCh (n % 10) :: acc),
        ih (n / 10) [digitCh (n % 10)]]
      simp

theorem natToDecAux_spec : ∀ (n fuel : Nat), n < fuel →
    ((natToDecAux fuel n []).foldl (fun a c => a * 10 + (c.toNat - 48)) 0 = n) ∧
    ∀ c ∈ natToDecAux fuel n [], isDigit09 c = true := by
  intro n
  induction n using Nat.strong_induction_on with
  | _ n ih =>
    intro fuel hfuel
    cases fuel with
    | zero => omega
    | succ f =>
      by_cases hn : n = 0
      · subst hn
        refine ⟨rfl, ?_⟩
        intro c hc
        cases hc
      · have hstep : natToDecAux (f + 1) n [] =
            natToDecAux f (n / 10) [] ++ [digitCh (n % 10)] := by
          show (if n = 0 then [] else natToDecAux f (n / 10) [digitCh (n % 10)]) = _
          rw [if_neg hn, natToDecAux_append f (n / 10) [digitCh (n % 10)]]
        have hd10 : n / 10 < n := Nat.div_lt_self (Nat.pos_of_ne_zero hn) (by omega)
        have hih := ih (n / 10) hd10 f (by omega)
        have hm10 : n % 10 < 10 := Nat.mod_lt n (by omega)
        constructor
        · rw [hstep, List.foldl_append, hih.1]
          show n / 10 * 10 + ((digitCh (n % 10)).toNat - 48) = n
          rw [(digitCh_spec (n % 10) hm10).2]
          omega
        · intro c hc
          rw [hstep] at hc
          rcases List.mem_append.mp hc with h1 | h2
          · exact hih.2 c h1
          · have hc2 : c = digitCh (n % 10) := by simpa using h2
            rw [hc2]
            exact (digitCh_spec (n % 10) hm10).1

theorem isDigitPart_of_digits (p : ZPart) (hne : p ≠ [])
    (h : ∀ c ∈ p, isDigit09 c = true) : isDigitPart p = true := by
  cases p with
  | nil => exact absurd rfl hne
  | cons c cs => exact h c (List.mem_cons_self c cs)

theorem natToDec_digits (n : Nat) :
    natToDec n ≠ [] ∧ ∀ c ∈ natToDec n, isDigit09 c = true := by
  unfold natToDec
  by_cases hn : n = 0
  · rw [if_pos hn]
    exact ⟨by simp, by intro c hc; simp at hc; rw [hc]; rfl⟩
  · rw [if_neg hn]
    have hstep : natToDecAux (n + 1) n [] =
        natToDecAux n (n / 10) [] ++ [digitCh (n % 10)] := by
      show (if n = 0 then [] else natToDecAux n (n / 10) [digitCh (n % 10)]) = _
      rw [if_neg hn, natToDecAux_append n (n / 10) [digitCh (n % 10)]]
    refine ⟨by rw [hstep]; simp, (natToDecAux_spec n (n + 1) (by omega)).2⟩

theorem isDigitPart_natToDec (n : Nat) : isDigitPart (natToDec n) = true :=
  isDigitPart_of_digits (natToDec n) (natToDec_digits n).1 (natToDec_digits n).2

/-- JS number round-trip: `parseInt((n).toString()) = n`. -/
theorem parseIntNat_natToDec (n : Nat) : parseIntNat (natToDec n) = n := by
  unfold parseIntNat
  rw [(takeWhile_all_eq isDigit09 (natToDec n) (natToDec_digits n).2).1]
  by_cases hn : n = 0
  · subst hn; rfl
  · show (natToDec n).foldl (fun a c => a * 10 + (c.toNat - 48)) 0 = n
    unfold natToDec
    rw [if_neg hn]
    exact (natToDecAux_spec n (n + 1) (by omega)).1

theorem zettelCmp_eq_lt (a : List ZPart) :
    ∀ b c, zettelCmp a b = .eq → zettelCmp b c = .lt → zettelCmp a c = .lt := by
  induction a with
  | nil =>
    intro b c hab hbc
    cases b with
    | nil => exact hbc
    | cons q qs => cases hab
  | cons p ps ih =>
    intro b c hab hbc
    cases b with
    | nil => cases hab
    | cons q qs =>
      cases c with
      | nil => cases hbc
      | cons r rs =>
        have hpq : partKeyCmp p q = .eq := by
          cases hk : partKeyCmp p q with
          | eq => rfl
          | lt => unfold zettelCmp at hab; rw [hk] at hab; cases hab
          | gt => unfold zettelCmp at hab; rw [hk] at hab; cases hab
        have hab2 : zettelCmp ps qs = .eq := by
          unfold zettelCmp at hab
          rw [hpq] at hab
          exact hab
        show zettelCmp (p :: ps) (r :: rs) = .lt
        have hkey : partKeyCmp p r = partKeyCmp q r := partKeyCmp_eq_left p q r hpq
        unfold zettelCmp at hbc ⊢
        rw [hkey]
        cases hqr : partKeyCmp q r with
        | lt => rfl
        | gt => rw [hqr] at hbc; cases hbc
        | eq =>
          rw [hqr] at hbc
          exact ih qs rs hab2 hbc

theorem compareLe_lt_trans (a b c : List ZPart) (hab : compareZettelIds a b ≤ 0)
    (hbc : compareZettelIds b c < 0) : compareZettelIds a c < 0 := by
  rw [compareZettelIds_lt_iff] at hbc ⊢
  cases hk : zettelCmp a b with
  | lt => exact zettelCmp_lt_trans a b c hk hbc
  | eq => exact zettelCmp_eq_lt a b c hk hbc
  | gt =>
    exfalso
    have := (compareZettelIds_gt_iff a b).mpr hk
    omega

theorem char_toNat_ofNat (n : Nat) (h : n < 55296) : (Char.ofNat n).toNat = n := by
  rw [Char.ofNat, dif_pos (Or.inl h)]
  rfl

theorem char_le_iff_toNat (a b : Char) : a ≤ b ↔ a.toNat ≤ b.toNat := by
  rw [Char.le_def, UInt32.le_def, BitVec.le_def]
  rfl

theorem char_lt_iff_toNat (a b : Char) : a < b ↔ a.toNat < b.toNat := by
  rw [Char.lt_def, UInt32.lt_def, BitVec.lt_def]
  rfl

theorem isLowerAZ_toNat (c : Char) (h : isLowerAZ c = true) :
    97 ≤ c.toNat ∧ c.toNat ≤ 122 := by
  unfold isLowerAZ at h
  rw [Bool.and_eq_true, decide_eq_true_eq, decide_eq_true_eq,
    char_le_iff_toNat, char_le_iff_toNat] at h
  exact h

theorem isLowerAZ_ofNat (n : Nat) (h1 : 97 ≤ n) (h2 : n ≤ 122) :
    isLowerAZ (Char.ofNat n) = true := by
  have hv : (Char.ofNat n).toNat = n := char_toNat_ofNat n (by omega)
  unfold isLowerAZ
  rw [Bool.and_eq_true, decide_eq_true_eq, decide_eq_true_eq,
    char_le_iff_toNat, char_le_iff_toNat, hv]
  exact ⟨h1, h2⟩

theorem incRevLetters_lower (l : List Char) :
    ∀ r, (∀ c ∈ l, isLowerAZ c = true) → incRevLetters l = some r →
      ∀ c ∈ r, isLowerAZ c = true := by
  induction l with
  | nil => intro r _ h; cases h
  | cons c rest ih =>
    intro r hall h
    unfold incRevLetters at h
    by_cases hc : c < 'z'
    · rw [if_pos hc] at h
      injection h with h
      intro d hd
      rw [← h] at hd
      rcases List.mem_cons.mp hd with rfl | hd2
      · have hcl := isLowerAZ_toNat c (hall c (List.mem_cons_self c rest))
        have hlt : c.toNat < 122 := by
          have := (char_lt_iff_toNat c 'z').mp hc
          exact this
        exact isLowerAZ_ofNat (c.toNat + 1) (by omega) (by omega)
      · exact hall d (List.mem_cons_of_mem c hd2)
    · rw [if_neg hc] at h
      cases hrec : incRevLetters rest with
      | none => rw [hrec] at h; cases h
      | some r2 =>
        rw [hrec] at h
        simp only [Option.map, Option.some.injEq] at h
        intro d hd
        rw [← h] at hd
        rcases List.mem_cons.mp hd with rfl | hd2
        · rfl
        · exact ih r2 (fun x hx => hall x (List.mem_cons_of_mem c hx)) hrec d hd2

/-- Incrementing a lowercase letter run yields a lowercase letter run. -/
theorem getNextLetterSequence_letterRun (p : List Char)
    (hp : ∀ c ∈ p, isLowerAZ c = true) :
    isLetterRun (getNextLetterSequence p) = true := by
  unfold getNextLetterSequence
  cases hinc : incRevLetters p.reverse with
  | none =>
    simp only [isLetterRun, Bool.and_eq_true, decide_eq_true_eq, List.all_eq_true]
    refine ⟨by simp, ?_⟩
    intro c hc
    rw [List.eq_of_mem_replicate hc]
    rfl
  | some r =>
    have hall := incRevLetters_lower p.reverse r
      (fun c hc => hp c (List.mem_reverse.mp hc)) hinc
    have hrne := incRevLetters_ne_nil p.reverse r hinc
    simp only [isLetterRun, Bool.and_eq_true, decide_eq_true_eq, List.all_eq_true]
    exact ⟨by simp [List.reverse_eq_nil_iff, hrne], fun c hc => hall c (List.mem_reverse.mp hc)⟩

/-- Dispatch equations for `generateChildId` on a non-virtual parent, by the
result of `getMaxChild` and the max child's trailing token. -/
theorem generateChildId_eq (l : List ZettelNode) (parent : ZettelNode)
    (hpe : parent.parts ≠ []) :
    (∀ u, getMaxChild l parent = none → parent.parts.getLast? = some u →
      generateChildId l parent =
        some (joinParts (parent.parts ++ [if isDigitPart u then ['a'] else ['1']]))) ∧
    (∀ m u, getMaxChild l parent = some m → m.parts.getLast? = some u →
      generateChildId l parent =
        if isDigitPart u then
          some (joinParts (parent.parts ++ [natToDec (parseIntNat u + 1)]))
        else if getNextLetterSequence u = [] then none
        else some (joinParts (parent.parts ++ [getNextLetterSequence u]))) := by
  constructor
  · intro u hmc hlast
    unfold generateChildId
    rw [if_neg hpe]
    split
    · rename_i m2 hm2
      rw [hmc] at hm2
      cases hm2
    · split
      · rename_i hl2
        rw [hlast] at hl2
        cases hl2
      · rename_i u2 hl2
        rw [hlast] at hl2
        injection hl2 with hl2
        rw [hl2]
  · intro m u hmc hlast
    unfold generateChildId
    rw [if_neg hpe]
    split
    · rename_i m2 hm2
      rw [hmc] at hm2
      injection hm2 with hm2
      subst hm2
      split
      · rename_i hl2
        rw [hlast] at hl2
        cases hl2
      · rename_i u2 hl2
        rw [hlast] at hl2
        injection hl2 with hl2
        rw [hl2]
    · rename_i hm2
      rw [hmc] at hm2
      cases hm2

/-- C1: the child-token kind follows the MAX CHILD's last token, not the
parent's: parent `a1` (digit-ending) with child `a1.2` generates `a1.3`, a
digit token, where the claim demands a letter token; and after the letter
child `z` the generated `aa` sorts BEFORE `z`, so the sequence is not
strictly increasing past the 26th letter sibling. -/
theorem C1_counterexample :
    (generateChildId
        [⟨['a'], [['a']], 0⟩, ⟨['a', '1'], [['a'], ['1']], 1⟩,
         ⟨['a', '1', '.', '2'], [['a'], ['1'], ['2']], 2⟩]
        ⟨['a', '1'], [['a'], ['1']], 1⟩ = some ['a', '1', '.', '3'] ∧
      isDigitPart ['1'] = true ∧
      tokenizeParts ['a', '1', '.', '3'] = [['a'], ['1'], ['3']] ∧
      isDigitPart ['3'] = true) ∧
    (generateChildId
        [⟨['a', '1'], [['a'], ['1']], 1⟩, ⟨['a', '1', 'z'], [['a'], ['1'], ['z']], 2⟩]
        ⟨['a', '1'], [['a'], ['1']], 1⟩ = some ['a', '1', 'a', 'a'] ∧
      compareZettelIds [['a'], ['1'], ['a', 'a']] [['a'], ['1'], ['z']] < 0) := by
  constructor
  · exact ⟨by decide, rfl, by decide, rfl⟩
  · exact ⟨by decide, by decide⟩

/-- C1: what `generateChildId` actually guarantees on a strictly sorted,
well-formed corpus.  With no existing direct child, the first-child token has
the kind OPPOSITE to the parent's trailing token (the claimed rule).  With a
max child present, the generated token's kind follows the MAX CHILD's
trailing token instead: after a digit token the successor digit token is
generated and it sorts strictly after every existing direct child; after a
letter token the incremented letter run is generated (which need not sort
last, see `C1_counterexample`). -/
theorem C1_generateChildId (l : List ZettelNode) (parent : ZettelNode)
    (hs : strictSortedB l = true) (hwf : ∀ n ∈ l, nodeWFB n = true)
    (hmem : parent ∈ l) :
    (∀ u, getMaxChild l parent = none → parent.parts.getLast? = some u →
      generateChildId l parent =
        some (joinParts (parent.parts ++ [if isDigitPart u then ['a'] else ['1']]))) ∧
    (∀ m u, getMaxChild l parent = some m → m.parts.getLast? = some u →
      isDigitPart u = true →
      generateChildId l parent =
        some (joinParts (parent.parts ++ [natToDec (parseIntNat u + 1)])) ∧
      isDigitPart (natToDec (parseIntNat u + 1)) = true ∧
      ∀ y ∈ l, ∀ t, y.parts = parent.parts ++ [t] →
        compareZettelIds y.parts (parent.parts ++ [natToDec (parseIntNat u + 1)]) < 0) ∧
    (∀ m u, getMaxChild l parent = some m → m.parts.getLast? = some u →
      isDigitPart u = false →
      generateChildId l parent =
        some (joinParts (parent.parts ++ [getNextLetterSequence u])) ∧
      isLetterRun (getNextLetterSequence u) = true) := by
  obtain ⟨hptok, hpne, hplvl⟩ := (nodeWFB_iff parent).mp (hwf parent hmem)
  have heq := generateChildId_eq l parent hpne
  refine ⟨heq.1, ?_, ?_⟩
  · intro m u hmc hlast hd
    have h1 := heq.2 m u hmc hlast
    rw [if_pos hd] at h1
    refine ⟨h1, isDigitPart_natToDec _, ?_⟩
    obtain ⟨hmmem, ⟨t, hmt⟩, hmax⟩ := (getMaxChild_spec l parent hs hwf hmem).2 m hmc
    have htu : t = u := by
      have h2 := hlast
      rw [hmt, List.getLast?_concat] at h2
      injection h2
    subst htu
    have hmlt : compareZettelIds m.parts
        (parent.parts ++ [natToDec (parseIntNat t + 1)]) < 0 := by
      rw [hmt, compareZettelIds_lt_iff, zettelCmp_append_strip]
      have hk : partKeyCmp t (natToDec (parseIntNat t + 1)) = .lt := by
        unfold partKeyCmp
        rw [if_pos hd, if_pos (isDigitPart_natToDec _), parseIntNat_natToDec, natCmp_lt_iff]
        omega
      show zettelCmp [t] [natToDec (parseIntNat t + 1)] = .lt
      unfold zettelCmp
      rw [hk]
    intro y hy t2 hyt
    exact compareLe_lt_trans y.parts m.parts _ (hmax y hy t2 hyt) hmlt
  · intro m u hmc hlast hd
    have h1 := heq.2 m u hmc hlast
    rw [if_neg (by simp [hd]), if_neg (getNextLetterSequence_ne_nil u)] at h1
    refine ⟨h1, ?_⟩
    obtain ⟨hmmem, _, _⟩ := (getMaxChild_spec l parent hs hwf hmem).2 m hmc
    obtain ⟨hmtok, _, _⟩ := (nodeWFB_iff m).mp (hwf m hmmem)
    have humem : u ∈ m.parts := mem_of_getLast?_eq m.parts u hlast
    have hutok : isTokenRun u = true := hmtok u humem
    have hlet : isLetterRun u = true := by
      rcases Bool.or_eq_true_iff.mp hutok with h2 | h2
      · exact h2
      · exact absurd (isDigitRun_isDigitPart u h2) (by simp [hd])
    apply getNextLetterSequence_letterRun
    intro c hc
    have := (Bool.and_eq_true _ _).mp hlet
    exact List.all_eq_true.mp this.2 c hc

theorem C1_generateChildId_witness :
    getMaxChild [nodeA, nodeA1] nodeA1 = none ∧
    nodeA1.parts.getLast? = some ['1'] ∧
    generateChildId [nodeA, nodeA1] nodeA1 =
      some (joinParts (nodeA1.parts ++ [if isDigitPart ['1'] then ['a'] else ['1']])) :=
  ⟨by decide, by decide,
    (C1_generateChildId [nodeA, nodeA1] nodeA1 (by decide) (by decide)
        (by decide)).1 ['1'] (by decide) (by decide)⟩

/-! ## The link-graph tree builder (`view.ts`, first revision) -/

/-- A vault file for the link-graph model: its identity and the files its
resolved links point to (`resolvedLinks[path]`, restricted to `.md` files). -/
structure VFile where
  fid : Nat
  links : List Nat
deriving Repr, DecidableEq

/-- `getBacklinks file`: the vault files whose resolved links contain the
file, in vault order. -/
def backlinksOf (vault : List VFile) (fid : Nat) : List VFile :=
  vault.filter (fun g => decide (fid ∈ g.links))

/-- The resolved links of a file, looked up by identity. -/
def linksOf (vault : List VFile) (fid : Nat) : List Nat :=
  match vault.find? (fun v => decide (v.fid = fid)) with
  | some v => v.links
  | none => []

/-- Backlink files surviving the `!newAncestors.has(backlinkFile)` filter. -/
def eligibleBacklinks (vault : List VFile) (fid : Nat) (ancestors : List Nat) :
    List VFile :=
  (backlinksOf vault fid).filter (fun g => decide (g.fid ∉ fid :: ancestors))

/-- Eligible backlinks the current file also links to (`isMutual`). -/
def mutualOf (vault : List VFile) (fid : Nat) (ancestors : List Nat) : List VFile :=
  (eligibleBacklinks vault fid ancestors).filter
    (fun g => decide (g.fid ∈ linksOf vault fid))

/-- Eligible backlinks the current file does not link back to. -/
def singleOf (vault : List VFile) (fid : Nat) (ancestors : List Nat) : List VFile :=
  (eligibleBacklinks vault fid ancestors).filter
    (fun g => decide (g.fid ∉ linksOf vault fid))

/-- `/\d$/.test(childId)`: does the id end in a digit? -/
def digitEnd (s : List Char) : Bool :=
  match s.getLast? with
  | some c => isDigit09 c
  | none => false

/-- A node of the rendered tree (the wrapped `TFile` reduced to its id). -/
inductive ZNode : Type where
  | node (fid : Nat) (id : List Char) (children : List ZNode) (level : Nat) : ZNode
deriving Repr

def ZNode.fid : ZNode → Nat
  | .node f _ _ _ => f

def ZNode.id : ZNode → List Char
  | .node _ i _ _ => i

def ZNode.children : ZNode → List ZNode
  | .node _ _ c _ => c

def ZNode.level : ZNode → Nat
  | .node _ _ _ l => l

/-- The `forEach` loops over mutual / single children: build each child with
its positional id, failing if any recursive call runs out of fuel. -/
def buildKidsF (bt : Nat → List Char → Option ZNode) (mkId : Nat → List Char) :
    Nat → List VFile → Option (List ZNode)
  | _, [] => some []
  | i, g :: gs =>
    match bt g.fid (mkId i) with
    | none => none
    | some n =>
      match buildKidsF bt mkId (i + 1) gs with
      | none => none
      | some ns => some (n :: ns)

/-- `view.buildTree` (first revision), fuel-driven.  The ancestor check
returns a placeholder leaf; otherwise the backlink files not already among
the new ancestors are split into mutual (listed first, suffix
`.` + number/letters) and single (suffix letters/number) children, and the
child branch flag is whether the child id ends in a digit. -/
def buildTreeF : Nat → List VFile → Nat → Nat → List Char → Bool → List Nat → Option ZNode
  | 0, _, _, _, _, _, _ => none
  | fuel + 1, vault, fid, level, currentId, useLetters, ancestors =>
    if fid ∈ ancestors then
      some (ZNode.node fid (currentId ++ [if useLetters then 'a' else '1']) [] level)
    else
      match buildKidsF
          (fun f cid =>
            buildTreeF fuel vault f (level + 1) cid (digitEnd cid) (fid :: ancestors))
          (fun i => currentId ++ '.' ::
            (if useLetters then natToDec (i + 1) else getLetterSequenceFromIndex i))
          0 (mutualOf vault fid ancestors) with
      | none => none
      | some ms =>
        match buildKidsF
            (fun f cid =>
              buildTreeF fuel vault f (level + 1) cid (digitEnd cid) (fid :: ancestors))
            (fun i => currentId ++
              (if useLetters then getLetterSequenceFromIndex i else natToDec (i + 1)))
            0 (singleOf vault fid ancestors) with
        | none => none
        | some ss => some (ZNode.node fid currentId (ms ++ ss) level)

/-- C4: in the one-directional chain `0 → 1 → 2`, the tree rooted at `0` has
NO children at all: children come exclusively from backlinks, so a file the
root merely links to is not recorded, not even as a leaf stand-in. -/
theorem C4_counterexample :
    buildTreeF 4 [⟨0, [1]⟩, ⟨1, [2]⟩, ⟨2, []⟩] 0 0 [] true [] =
      some (ZNode.node 0 [] [] 0) := rfl

theorem buildTreeF_fid (fuel : Nat) (vault : List VFile) (f lvl : Nat)
    (cid : List Char) (ul : Bool) (anc : List Nat) (t : ZNode)
    (h : buildTreeF fuel vault f lvl cid ul anc = some t) :
    t.fid = f ∧ t.level = lvl := by
  cases fuel with
  | zero => cases h
  | succ n =>
    unfold buildTreeF at h
    by_cases ha : f ∈ anc
    · rw [if_pos ha] at h
      injection h with h
      rw [← h]
      exact ⟨rfl, rfl⟩
    · rw [if_neg ha] at h
      split at h
      · cases h
      · split at h
        · cases h
        · injection h with h
          rw [← h]
          exact ⟨rfl, rfl⟩

theorem buildKidsF_mem (bt : Nat → List Char → Option ZNode) (mkId : Nat → List Char) :
    ∀ (i : Nat) (gs : List VFile) (ns : List ZNode),
      buildKidsF bt mkId i gs = some ns →
      ∀ n ∈ ns, ∃ g ∈ gs, ∃ j, bt g.fid (mkId j) = some n := by
  intro i gs
  induction gs generalizing i with
  | nil =>
    intro ns h n hn
    injection h with h
    rw [← h] at hn
    cases hn
  | cons g gs ih =>
    intro ns h n hn
    unfold buildKidsF at h
    cases hbt : bt g.fid (mkId i) with
    | none => rw [hbt] at h; cases h
    | some m =>
      rw [hbt] at h
      cases hrec : buildKidsF bt mkId (i + 1) gs with
      | none => rw [hrec] at h; cases h
      | some ms =>
        rw [hrec] at h
        injection h with h
        rw [← h] at hn
        rcases List.mem_cons.mp hn with rfl | hn2
        · exact ⟨g, List.mem_cons_self g gs, i, hbt⟩
        · obtain ⟨g2, hg2, j, hj⟩ := ih (i + 1) ms hrec n hn2
          exact ⟨g2, List.mem_cons_of_mem g hg2, j, hj⟩

/-- C4: what the children of a built node really are.  They split into the
mutual backlinks (first) and the single backlinks (second); every child's
file LINKS TO the parent.  There is no third, outgoing-only class: files the
parent links to without a backlink are absent (`C4_counterexample`). -/
theorem C4_buildTree_children (fuel : Nat) (vault : List VFile) (fid level : Nat)
    (cid : List Char) (ul : Bool) (anc : List Nat) (t : ZNode)
    (hfid : fid ∉ anc)
    (h : buildTreeF fuel vault fid level cid ul anc = some t) :
    ∃ ms ss,
      t.children = ms ++ ss ∧
      (∀ c ∈ ms, ∃ g ∈ mutualOf vault fid anc, c.fid = g.fid) ∧
      (∀ c ∈ ss, ∃ g ∈ singleOf vault fid anc, c.fid = g.fid) ∧
      ∀ c ∈ t.children, ∃ g ∈ vault, c.fid = g.fid ∧ fid ∈ g.links := by
  cases fuel with
  | zero => cases h
  | succ n =>
    unfold buildTreeF at h
    rw [if_neg hfid] at h
    split at h
    · cases h
    · rename_i ms hms
      split at h
      · cases h
      · rename_i ss hss
        injection h with h
        have hch : t.children = ms ++ ss := by rw [← h]; rfl
        have hmut : ∀ c ∈ ms, ∃ g ∈ mutualOf vault fid anc, c.fid = g.fid := by
          intro c hc
          obtain ⟨g, hg, j, hj⟩ := buildKidsF_mem _ _ 0 _ ms hms c hc
          exact ⟨g, hg, (buildTreeF_fid _ _ _ _ _ _ _ _ hj).1⟩
        have hsin : ∀ c ∈ ss, ∃ g ∈ singleOf vault fid anc, c.fid = g.fid := by
          intro c hc
          obtain ⟨g, hg, j, hj⟩ := buildKidsF_mem _ _ 0 _ ss hss c hc
          exact ⟨g, hg, (buildTreeF_fid _ _ _ _ _ _ _ _ hj).1⟩
        refine ⟨ms, ss, hch, hmut, hsin, ?_⟩
        intro c hc
        rw [hch] at hc
        have hback : ∃ g ∈ backlinksOf vault fid, c.fid = g.fid := by
          rcases List.mem_append.mp hc with h1 | h1
          · obtain ⟨g, hg, he⟩ := hmut c h1
            exact ⟨g, List.filter_subset' _ (List.filter_subset' _ hg), he⟩
          · obtain ⟨g, hg, he⟩ := hsin c h1
            exact ⟨g, List.filter_subset' _ (List.filter_subset' _ hg), he⟩
        obtain ⟨g, hg, he⟩ := hback
        have := List.mem_filter.mp hg
        exact ⟨g, this.1, he, by simpa using this.2⟩

theorem C4_buildTree_children_witness :
    (0 ∉ ([] : List Nat)) ∧
    ∃ ms ss,
      (ZNode.node 0 [] [ZNode.node 1 ['.', '1'] [] 1] 0).children = ms ++ ss ∧
      (∀ c ∈ ms, ∃ g ∈ mutualOf [⟨0, [1]⟩, ⟨1, [0]⟩] 0 [], c.fid = g.fid) ∧
      (∀ c ∈ ss, ∃ g ∈ singleOf [⟨0, [1]⟩, ⟨1, [0]⟩] 0 [], c.fid = g.fid) ∧
      ∀ c ∈ (ZNode.node 0 [] [ZNode.node 1 ['.', '1'] [] 1] 0).children,
        ∃ g ∈ [(⟨0, [1]⟩ : VFile), ⟨1, [0]⟩], c.fid = g.fid ∧ 0 ∈ g.links :=
  ⟨by decide,
    C4_buildTree_children 3 [⟨0, [1]⟩, ⟨1, [0]⟩] 0 0 [] true []
      (ZNode.node 0 [] [ZNode.node 1 ['.', '1'] [] 1] 0) (by decide) rfl⟩

/-- C5: in the 2-cycle `0 ↔ 1`, the tree builds fine but the node for `1`
has an EMPTY child list — no placeholder leaf with synthetic id `.1a` is
emitted for the revisited root.  The ancestor filter removes the root from
`1`'s children before recursion, so the placeholder branch is never taken. -/
theorem C5_counterexample :
    buildTreeF 3 [⟨0, [1]⟩, ⟨1, [0]⟩] 0 0 [] true [] =
      some (ZNode.node 0 [] [ZNode.node 1 ['.', '1'] [] 1] 0) := rfl

/-- C5: termination holds — with fuel exceeding the number of vault files not
yet among the ancestors, `buildTreeF` always succeeds, cycles included: each
recursion adds the current file to the ancestor set and children are drawn
from the vault outside it. -/
theorem C5_buildTree_termination (vault : List VFile) (fuel fid level : Nat)
    (cid : List Char) (ul : Bool) (anc : List Nat)
    (hf : fid ∈ vault.map VFile.fid ∨ fid ∈ anc)
    (hfuel : ((vault.map VFile.fid).toFinset \ anc.toFinset).card + 1 ≤ fuel) :
    (buildTreeF fuel vault fid level cid ul anc).isSome = true := by
  induction fuel generalizing fid level cid ul anc with
  | zero => omega
  | succ n ih =>
    unfold buildTreeF
    by_cases ha : fid ∈ anc
    · rw [if_pos ha]
      rfl
    · rw [if_neg ha]
      have hfS : fid ∈ vault.map VFile.fid := hf.resolve_right ha
      have hcard : ((vault.map VFile.fid).toFinset \ (fid :: anc).toFinset).card + 1 ≤ n := by
        have h1 : fid ∈ (vault.map VFile.fid).toFinset \ anc.toFinset := by
          rw [Finset.mem_sdiff]
          exact ⟨List.mem_toFinset.mpr hfS, by simp [ha]⟩
        have h2 : (vault.map VFile.fid).toFinset \ (fid :: anc).toFinset =
            ((vault.map VFile.fid).toFinset \ anc.toFinset).erase fid := by
          rw [List.toFinset_cons, Finset.sdiff_insert]
        have h3 : 0 < ((vault.map VFile.fid).toFinset \ anc.toFinset).card :=
          Finset.card_pos.mpr ⟨fid, h1⟩
        rw [h2, Finset.card_erase_of_mem h1]
        omega
      have hkids : ∀ (mkId : Nat → List Char) (gs : List VFile) (i : Nat),
          (∀ g ∈ gs, g ∈ vault) →
          (buildKidsF
            (fun f c2 => buildTreeF n vault f (level + 1) c2 (digitEnd c2) (fid :: anc))
            mkId i gs).isSome = true := by
        intro mkId gs
        induction gs with
        | nil => intro i _; rfl
        | cons g gs ih2 =>
          intro i hsub
          have hmap : g.fid ∈ vault.map VFile.fid :=
            List.mem_map_of_mem VFile.fid (hsub g (List.mem_cons_self g gs))
          have hg := ih g.fid (level + 1) (mkId i) (digitEnd (mkId i)) (fid :: anc)
            (Or.inl hmap) hcard
          unfold buildKidsF
          cases hbt : buildTreeF n vault g.fid (level + 1) (mkId i)
              (digitEnd (mkId i)) (fid :: anc) with
          | none => rw [hbt] at hg; cases hg
          | some m =>
            have hrec := ih2 (i + 1) (fun x hx => hsub x (List.mem_cons_of_mem g hx))
            cases hrec2 : buildKidsF
                (fun f c2 => buildTreeF n vault f (level + 1) c2 (digitEnd c2) (fid :: anc))
                mkId (i + 1) gs with
            | none => rw [hrec2] at hrec; cases hrec
            | some ns => rfl
      have hsubM : ∀ g ∈ mutualOf vault fid anc, g ∈ vault := fun g hg =>
        List.filter_subset' _ (List.filter_subset' _ (List.filter_subset' _ hg))
      have hsubS : ∀ g ∈ singleOf vault fid anc, g ∈ vault := fun g hg =>
        List.filter_subset' _ (List.filter_subset' _ (List.filter_subset' _ hg))
      cases hms : buildKidsF
          (fun f c2 => buildTreeF n vault f (level + 1) c2 (digitEnd c2) (fid :: anc))
          (fun i => cid ++ '.' ::
            (if ul then natToDec (i + 1) else getLetterSequenceFromIndex i))
          0 (mutualOf vault fid anc) with
      | none =>
        have := hkids
          (fun i => cid ++ '.' ::
            (if ul then natToDec (i + 1) else getLetterSequenceFromIndex i))
          (mutualOf vault fid anc) 0 hsubM
        rw [hms] at this
        cases this
      | some ms =>
        cases hss : buildKidsF
            (fun f c2 => buildTreeF n vault f (level + 1) c2 (digitEnd c2) (fid :: anc))
            (fun i => cid ++
              (if ul then getLetterSequenceFromIndex i else natToDec (i + 1)))
            0 (singleOf vault fid anc) with
        | none =>
          have := hkids
            (fun i => cid ++
              (if ul then getLetterSequenceFromIndex i else natToDec (i + 1)))
            (singleOf vault fid anc) 0 hsubS
          rw [hss] at this
          cases this
        | some ss => rfl

theorem C5_buildTree_termination_witness :
    ((0 ∈ [VFile.mk 0 [1], VFile.mk 1 [0]].map VFile.fid ∨ 0 ∈ ([] : List Nat)) ∧
      (([VFile.mk 0 [1], VFile.mk 1 [0]].map VFile.fid).toFinset \
        ([] : List Nat).toFinset).card + 1 ≤ 3) ∧
    (buildTreeF 3 [VFile.mk 0 [1], VFile.mk 1 [0]] 0 0 [] true []).isSome = true :=
  ⟨⟨Or.inl (by decide), by decide⟩,
    C5_buildTree_termination [VFile.mk 0 [1], VFile.mk 1 [0]] 3 0 0 [] true []
      (Or.inl (by decide)) (by decide)⟩
